import Mathlib

/-!
# A verification development for the REPL store (`store.ts`)

This file shallowly embeds the reactive store of an in-browser code
playground: a virtual file set keyed by filename (insertion ordered, as a
JavaScript object), an active-file selection, a main-file designation, an
import-map layer, and serialization of the whole workspace to a
URL-embeddable string.

Modelling conventions:
* JavaScript objects of files are association lists `List (String × α)`
  with JS assignment semantics (`listSet`: update in place keeps the key's
  original position, a fresh key is appended) and JS deletion (`listDelete`).
  Filenames in this store are never integer-like, so the JS rule that
  integer-like keys iterate first never applies and insertion order is the
  iteration order.
* JSON values are the inductive `Json`.  The external built-ins
  `JSON.stringify`/`JSON.parse` are modelled from the spec by the executable
  codec `jsonStringify`/`jsonParse` over the fragment of JSON this store
  produces (null, booleans, strings, arrays, objects; no numeric literals
  occur in any state the claims consider).  Indentation is
  presentation-only, so the same canonical encoding models both
  `JSON.stringify(x)` and the pretty-printed `JSON.stringify(x, undefined, 2)`.
* Mutable refs become fields of `StoreState`; asynchronous compile callbacks
  (the external transform collaborator) do not change the modelled state
  synchronously and surface as injected diagnostic-list parameters.
-/

/-! ## Association lists with JavaScript object semantics -/

/-- Lookup of a key in a JS-object association list. -/
def listGet {α : Type} (l : List (String × α)) (k : String) : Option α :=
  (l.find? (fun p => p.1 == k)).map (fun p => p.2)

/-- JS property assignment: an existing key keeps its position and gets the
new value; a fresh key is appended at the end. -/
def listSet {α : Type} (l : List (String × α)) (k : String) (v : α) :
    List (String × α) :=
  if l.any (fun p => p.1 == k) then
    l.map (fun p => if p.1 == k then (k, v) else p)
  else l ++ [(k, v)]

/-- JS property deletion. -/
def listDelete {α : Type} (l : List (String × α)) (k : String) :
    List (String × α) :=
  l.filter (fun p => !(p.1 == k))

/-- The keys of a JS-object association list, in iteration order. -/
def listKeys {α : Type} (l : List (String × α)) : List String :=
  l.map (fun p => p.1)

/-! ## The JSON data model (modelled fragment) -/

/-- Modelled from the spec: the JSON values this store reads and writes.
A numeric value carries its literal verbatim: the store's contents (file
records, import maps, the tsconfig object) never compare or re-format
numbers, so JavaScript's float re-formatting of unusual literals (`1e3` →
`1000`) is outside the model. -/
inductive Json where
  | null : Json
  | bool (b : Bool) : Json
  | num (lit : String) : Json
  | str (s : String) : Json
  | arr (elements : List Json) : Json
  | obj (fields : List (String × Json)) : Json

mutual

/-- Decidable equality of JSON values (the nested inductive rules out
automatic derivation). -/
def Json.decEq : (a b : Json) → Decidable (a = b)
  | .null, .null => isTrue rfl
  | .null, .bool _ => isFalse nofun
  | .null, .num _ => isFalse nofun
  | .null, .str _ => isFalse nofun
  | .null, .arr _ => isFalse nofun
  | .null, .obj _ => isFalse nofun
  | .bool _, .null => isFalse nofun
  | .bool a, .bool b =>
    if h : a = b then isTrue (by rw [h]) else isFalse (by simp [h])
  | .bool _, .num _ => isFalse nofun
  | .bool _, .str _ => isFalse nofun
  | .bool _, .arr _ => isFalse nofun
  | .bool _, .obj _ => isFalse nofun
  | .num _, .null => isFalse nofun
  | .num _, .bool _ => isFalse nofun
  | .num a, .num b =>
    if h : a = b then isTrue (by rw [h]) else isFalse (by simp [h])
  | .num _, .str _ => isFalse nofun
  | .num _, .arr _ => isFalse nofun
  | .num _, .obj _ => isFalse nofun
  | .str _, .null => isFalse nofun
  | .str _, .bool _ => isFalse nofun
  | .str _, .num _ => isFalse nofun
  | .str a, .str b =>
    if h : a = b then isTrue (by rw [h]) else isFalse (by simp [h])
  | .str _, .arr _ => isFalse nofun
  | .str _, .obj _ => isFalse nofun
  | .arr _, .null => isFalse nofun
  | .arr _, .bool _ => isFalse nofun
  | .arr _, .num _ => isFalse nofun
  | .arr _, .str _ => isFalse nofun
  | .arr as, .arr bs =>
    match Json.decEqList as bs with
    | isTrue h => isTrue (by rw [h])
    | isFalse h => isFalse (by simp [h])
  | .arr _, .obj _ => isFalse nofun
  | .obj _, .null => isFalse nofun
  | .obj _, .bool _ => isFalse nofun
  | .obj _, .num _ => isFalse nofun
  | .obj _, .str _ => isFalse nofun
  | .obj _, .arr _ => isFalse nofun
  | .obj as, .obj bs =>
    match Json.decEqFields as bs with
    | isTrue h => isTrue (by rw [h])
    | isFalse h => isFalse (by simp [h])

/-- Decidable equality of JSON value lists. -/
def Json.decEqList : (a b : List Json) → Decidable (a = b)
  | [], [] => isTrue rfl
  | [], _ :: _ => isFalse nofun
  | _ :: _, [] => isFalse nofun
  | a :: as, b :: bs =>
    match Json.decEq a b, Json.decEqList as bs with
    | isTrue h1, isTrue h2 => isTrue (by rw [h1, h2])
    | isFalse h1, _ => isFalse (by simp [h1])
    | _, isFalse h2 => isFalse (by simp [h2])

/-- Decidable equality of JSON object field lists. -/
def Json.decEqFields : (a b : List (String × Json)) → Decidable (a = b)
  | [], [] => isTrue rfl
  | [], _ :: _ => isFalse nofun
  | _ :: _, [] => isFalse nofun
  | (k1, v1) :: as, (k2, v2) :: bs =>
    if hk : k1 = k2 then
      match Json.decEq v1 v2, Json.decEqFields as bs with
      | isTrue h1, isTrue h2 => isTrue (by rw [hk, h1, h2])
      | isFalse h1, _ => isFalse (by simp [h1])
      | _, isFalse h2 => isFalse (by simp [h2])
    else isFalse (by simp [hk])

end

instance : DecidableEq Json := Json.decEq

/-- JS truthiness of a JSON value: `null`, `false`, the empty string and a
zero number are falsy; every array and every object (even empty) is truthy.
A parsed numeric literal is zero exactly when its mantissa (the part before
any exponent) has no digit `1`–`9`. -/
def jsTruthy : Json → Bool
  | .null => false
  | .bool b => b
  | .num lit => (lit.data.takeWhile (fun c => !(c = 'e' ∨ c = 'E'))).any
      (fun c => '1' ≤ c ∧ c ≤ '9')
  | .str s => !(s == "")
  | .arr _ => true
  | .obj _ => true

/-- JS strict equality (`===`) on JSON values: value equality on primitives,
reference equality — hence never true here, the compared objects being
freshly parsed — on arrays and objects.  Numeric literals compare by
lexeme; the built-in import map the claims compare against holds only
string values, so the float comparison (`1 === 1.0`) never arises. -/
def jsStrictEq : Json → Json → Bool
  | .null, .null => true
  | .bool a, .bool b => a == b
  | .num a, .num b => a == b
  | .str a, .str b => a == b
  | _, _ => false

/-- The fields of a JSON object (`[]` for any other value, as
`Object.entries` of a JS primitive yields nothing relevant here). -/
def Json.objFields : Json → List (String × Json)
  | .obj fs => fs
  | _ => []

/-- JS property read on a JSON value. -/
def jget (j : Json) (k : String) : Option Json :=
  match j with
  | .obj fs => listGet fs k
  | _ => none

/-- JS property write on a JSON object (other values are left unchanged). -/
def jsetKey (j : Json) (k : String) (v : Json) : Json :=
  match j with
  | .obj fs => .obj (listSet fs k v)
  | _ => j

/-- JS property deletion on a JSON object. -/
def jdelKey (j : Json) (k : String) : Json :=
  match j with
  | .obj fs => .obj (listDelete fs k)
  | _ => j

/-- `Object.keys` of a JSON value: an object's field names, the index
strings of an array's elements or of a string's characters (JS strings are
array-like; an astral character, absent from every state the claims
consider, would count once here and twice in JS), and nothing for the other
primitives.  `Object.keys(null)` throws in JS; the one place the store
could reach it — `serialize` on a parsed `null` — has already thrown at the
preceding property access, modelled there. -/
def jkeys (j : Json) : List String :=
  match j with
  | .obj fs => listKeys fs
  | .arr es => (List.range es.length).map (fun n => toString n)
  | .str s => (List.range s.length).map (fun n => toString n)
  | _ => []

/-! ## The JSON text codec

Modelled from the spec: the external built-ins `JSON.stringify` and
`JSON.parse` ("JSON-encodes the result", "parses … as JSON").  The encoder
is canonical and compact; the parser skips whitespace between tokens and is
a total, fuel-indexed recursive descent over the full JSON grammar —
literals, numbers, strings with their escape sequences, arrays, objects.
An object literal with a repeated key keeps both fields where JS keeps the
last, and a `\u` escape for a surrogate half (no Unicode scalar) falls to
`Char.ofNat`'s default; no state the claims consider contains either.  The
development proves `jsonParse (jsonStringify j) = .ok j` for number-free
values, the only property of the built-in pair the store relies on. -/

/-- The lower-case hex digit of a value below 16 (as `JSON.stringify`
prints control characters). -/
def hexDigit (n : Nat) : Char :=
  if n < 10 then Char.ofNat (48 + n) else Char.ofNat (87 + n)

/-- A hexadecimal digit as `JSON.parse` accepts it after `\u`. -/
def isHexDigitChar (c : Char) : Bool :=
  ('0' ≤ c ∧ c ≤ '9') ∨ ('a' ≤ c ∧ c ≤ 'f') ∨ ('A' ≤ c ∧ c ≤ 'F')

/-- The value of a hexadecimal digit. -/
def hexVal (c : Char) : Nat :=
  if '0' ≤ c ∧ c ≤ '9' then c.toNat - 48
  else if 'a' ≤ c ∧ c ≤ 'f' then c.toNat - 87
  else c.toNat - 55

/-- Escape one character for a JSON string literal, as `JSON.stringify`
does: quote and backslash escaped, the five named control characters by
their short escapes, every other control character as `\u00XX`. -/
def escChar (c : Char) : List Char :=
  if c = '"' ∨ c = '\\' then ['\\', c]
  else if c = Char.ofNat 8 then ['\\', 'b']
  else if c = Char.ofNat 9 then ['\\', 't']
  else if c = Char.ofNat 10 then ['\\', 'n']
  else if c = Char.ofNat 12 then ['\\', 'f']
  else if c = Char.ofNat 13 then ['\\', 'r']
  else if c.toNat < 32 then
    ['\\', 'u', '0', '0', hexDigit (c.toNat / 16), hexDigit (c.toNat % 16)]
  else [c]

/-- Escape the characters of a JSON string body. -/
def escString (cs : List Char) : List Char :=
  cs.foldr (fun c acc => escChar c ++ acc) []

/-- Encode a string as a JSON string literal. -/
def encStr (s : String) : List Char :=
  '"' :: (escString s.data ++ ['"'])

mutual

/-- Encode a JSON value as text (characters). -/
def encJson : Json → List Char
  | .null => ['n', 'u', 'l', 'l']
  | .bool b => if b then ['t', 'r', 'u', 'e'] else ['f', 'a', 'l', 's', 'e']
  | .num lit => lit.data
  | .str s => encStr s
  | .arr es => '[' :: (encElems es ++ [']'])
  | .obj fs => '{' :: (encFields fs ++ ['}'])

/-- Encode the comma-separated elements of a JSON array. -/
def encElems : List Json → List Char
  | [] => []
  | [x] => encJson x
  | x :: y :: rest => encJson x ++ ',' :: encElems (y :: rest)

/-- Encode the comma-separated fields of a JSON object. -/
def encFields : List (String × Json) → List Char
  | [] => []
  | [(k, v)] => encStr k ++ ':' :: encJson v
  | (k, v) :: f :: rest => encStr k ++ ':' :: encJson v ++ ',' :: encFields (f :: rest)

end

/-- The JSON text of a value.  Models both `JSON.stringify(x)` and the
pretty-printed `JSON.stringify(x, undefined, 2)`: indentation is
presentation-only and plays no role in any claim. -/
def jsonStringify (j : Json) : String := ⟨encJson j⟩

/-- Whitespace as the JSON grammar skips it. -/
def isWsChar (c : Char) : Bool :=
  c = ' ' ∨ c = '\n' ∨ c = '\t' ∨ c = '\r'

/-- Skip leading whitespace. -/
def skipWs : List Char → List Char
  | [] => []
  | c :: rest => if isWsChar c then skipWs rest else c :: rest

/-- Strip an expected literal prefix, returning the remainder. -/
def stripPre : List Char → List Char → Option (List Char)
  | [], l => some l
  | _ :: _, [] => none
  | p :: ps, c :: cs => if c = p then stripPre ps cs else none

/-- The character named by a single-letter JSON escape (`none` marks the
invalid escapes `JSON.parse` rejects). -/
def unescChar : Char → Option Char
  | '"' => some '"'
  | '\\' => some '\\'
  | '/' => some '/'
  | 'b' => some (Char.ofNat 8)
  | 'f' => some (Char.ofNat 12)
  | 'n' => some (Char.ofNat 10)
  | 'r' => some (Char.ofNat 13)
  | 't' => some (Char.ofNat 9)
  | _ => none

/-- Parse the body of a JSON string literal after its opening quote: the
unescaped characters and the remainder after the closing quote.  As in
`JSON.parse`, an invalid escape and a raw control character are errors. -/
def decStrBody : List Char → Option (List Char × List Char)
  | [] => none
  | c :: rest =>
    if c = '"' then some ([], rest)
    else if c = '\\' then
      match rest with
      | [] => none
      | 'u' :: h1 :: h2 :: h3 :: h4 :: rest2 =>
        if isHexDigitChar h1 ∧ isHexDigitChar h2 ∧ isHexDigitChar h3 ∧
            isHexDigitChar h4 then
          (decStrBody rest2).map (fun p =>
            (Char.ofNat (((hexVal h1 * 16 + hexVal h2) * 16 + hexVal h3) * 16 +
              hexVal h4) :: p.1, p.2))
        else none
      | 'u' :: _ => none
      | d :: rest' =>
        match unescChar d with
        | some e => (decStrBody rest').map (fun p => (e :: p.1, p.2))
        | none => none
    else if c.toNat < 32 then none
    else (decStrBody rest).map (fun p => (c :: p.1, p.2))

/-- A decimal digit. -/
def isDigitChar (c : Char) : Bool := '0' ≤ c ∧ c ≤ '9'

/-- Parse an optional exponent part after a number's mantissa, yielding
the whole literal and the remainder. -/
def decNumExp (acc : List Char) (r : List Char) : Option (List Char × List Char) :=
  match r with
  | e :: r2 =>
    if e = 'e' ∨ e = 'E' then
      let (sgn2, r3) : List Char × List Char := match r2 with
        | s :: r3 => if s = '+' ∨ s = '-' then ([s], r3) else ([], r2)
        | [] => ([], r2)
      match r3.takeWhile isDigitChar with
      | [] => none
      | ds => some (acc ++ e :: (sgn2 ++ ds), r3.dropWhile isDigitChar)
    else some (acc, r)
  | [] => some (acc, r)

/-- Parse an optional fraction part after a number's integer part. -/
def decNumFrac (acc : List Char) (r : List Char) : Option (List Char × List Char) :=
  match r with
  | '.' :: r2 =>
    match r2.takeWhile isDigitChar with
    | [] => none
    | ds => decNumExp (acc ++ '.' :: ds) (r2.dropWhile isDigitChar)
  | _ => decNumExp acc r

/-- Parse a JSON numeric literal (`-?(0|[1-9][0-9]*)(\.[0-9]+)?([eE][+-]?[0-9]+)?`),
returning its lexeme and the remainder. -/
def decNumber (input : List Char) : Option (List Char × List Char) :=
  let (sgn, r1) : List Char × List Char := match input with
    | '-' :: r => (['-'], r)
    | _ => ([], input)
  match r1 with
  | [] => none
  | c :: r2 =>
    if c = '0' then decNumFrac (sgn ++ [c]) r2
    else if isDigitChar c then
      decNumFrac (sgn ++ c :: r2.takeWhile isDigitChar) (r2.dropWhile isDigitChar)
    else none

mutual

/-- Parse one JSON value; returns it with the unconsumed remainder. -/
def decVal : Nat → List Char → Except String (Json × List Char)
  | 0, _ => .error "value nested too deeply"
  | fuel + 1, input =>
    match skipWs input with
    | [] => .error "unexpected end of input"
    | c :: rest =>
      if c = 'n' then
        match stripPre ['u', 'l', 'l'] rest with
        | some r => .ok (.null, r)
        | none => .error "bad literal"
      else if c = 't' then
        match stripPre ['r', 'u', 'e'] rest with
        | some r => .ok (.bool true, r)
        | none => .error "bad literal"
      else if c = 'f' then
        match stripPre ['a', 'l', 's', 'e'] rest with
        | some r => .ok (.bool false, r)
        | none => .error "bad literal"
      else if c = '"' then
        match decStrBody rest with
        | some (body, r) => .ok (.str ⟨body⟩, r)
        | none => .error "unterminated string"
      else if c = '[' then
        match skipWs rest with
        | d :: r => if d = ']' then .ok (.arr [], r) else decElems fuel rest []
        | [] => .error "unterminated array"
      else if c = '{' then
        match skipWs rest with
        | d :: r => if d = '}' then .ok (.obj [], r) else decFields fuel rest []
        | [] => .error "unterminated object"
      else if c = '-' ∨ isDigitChar c = true then
        match decNumber (c :: rest) with
        | some (lit, r) => .ok (.num ⟨lit⟩, r)
        | none => .error "bad number"
      else .error "unexpected character"

/-- Parse the elements of a nonempty JSON array after its opening bracket. -/
def decElems : Nat → List Char → List Json → Except String (Json × List Char)
  | 0, _, _ => .error "value nested too deeply"
  | fuel + 1, input, acc =>
    match decVal fuel input with
    | .error e => .error e
    | .ok (v, rest) =>
      match skipWs rest with
      | [] => .error "unterminated array"
      | d :: r =>
        if d = ',' then decElems fuel r (acc ++ [v])
        else if d = ']' then .ok (.arr (acc ++ [v]), r)
        else .error "expected comma or closing bracket"

/-- Parse the fields of a nonempty JSON object after its opening brace. -/
def decFields : Nat → List Char → List (String × Json) →
    Except String (Json × List Char)
  | 0, _, _ => .error "value nested too deeply"
  | fuel + 1, input, acc =>
    match skipWs input with
    | [] => .error "unterminated object"
    | c :: rest =>
      if c = '"' then
        match decStrBody rest with
        | none => .error "unterminated string"
        | some (key, r1) =>
          match skipWs r1 with
          | [] => .error "expected colon"
          | d :: r2 =>
            if d = ':' then
              match decVal fuel r2 with
              | .error e => .error e
              | .ok (v, r3) =>
                match skipWs r3 with
                | [] => .error "unterminated object"
                | e2 :: r4 =>
                  if e2 = ',' then decFields fuel r4 (acc ++ [(⟨key⟩, v)])
                  else if e2 = '}' then .ok (.obj (acc ++ [(⟨key⟩, v)]), r4)
                  else .error "expected comma or closing brace"
            else .error "expected colon"
      else .error "expected a key"

end

/-- Parse a whole JSON text: one value and nothing but whitespace after it. -/
def jsonParse (s : String) : Except String Json :=
  match decVal (s.data.length + 1) s.data with
  | .error e => .error e
  | .ok (v, rest) =>
    match skipWs rest with
    | [] => .ok v
    | _ => .error "trailing input"

mutual

/-- A JSON value without numeric literals.  Every value the store itself
writes — file records of strings and booleans, import-map texts — is
number-free; the codec's round-trip theorem is stated for these. -/
def numFree : Json → Bool
  | .null => true
  | .bool _ => true
  | .num _ => false
  | .str _ => true
  | .arr es => numFreeElems es
  | .obj fs => numFreeFields fs

/-- `numFree` on the elements of an array. -/
def numFreeElems : List Json → Bool
  | [] => true
  | x :: r => numFree x && numFreeElems r

/-- `numFree` on the fields of an object. -/
def numFreeFields : List (String × Json) → Bool
  | [] => true
  | (_, v) :: r => numFree v && numFreeFields r

end

/-! ## String helpers

The source's string operations, defined over the character-list
representation so that proofs can proceed by list induction. -/

/-- `String.prototype.startsWith`. -/
def strStartsWith (s p : String) : Bool := p.data.isPrefixOf s.data

/-- `String.prototype.endsWith`. -/
def strEndsWith (s p : String) : Bool := p.data.isSuffixOf s.data

/-- Drop the first `n` characters. -/
def strDrop (s : String) (n : Nat) : String := ⟨s.data.drop n⟩

/-- Replace the first occurrence of `pat` by `repl` (JS
`String.prototype.replace` with a string pattern replaces only the first
occurrence). -/
def replaceFirstAux (pat repl : List Char) : List Char → List Char
  | [] => []
  | c :: rest =>
    if pat.isPrefixOf (c :: rest) then repl ++ (c :: rest).drop pat.length
    else c :: replaceFirstAux pat repl rest

/-- `url.replace(pat, repl)` for string patterns: first occurrence only. -/
def strReplaceFirst (s pat repl : String) : String :=
  ⟨replaceFirstAux pat.data repl.data s.data⟩

/-! ## Reserved filenames and filename normalization (from the source) -/

def importMapFile : String := "import-map.json"

def tsconfigFile : String := "tsconfig.json"

def viteConfigFile : String := "vite.config.ts"

def tsMacroConfigFile : String := "tsm.config.ts"

def indexHtmlFile : String := "src/index.html"

def welcomeFile : String := "src/App.tsx"

/-- `addSrcPrefix` from the source: reserved filenames and names already
under `src/` are kept; every other name gains the `src/` prefix. -/
def addSrcPrefix (file : String) : String :=
  if file = importMapFile ∨ file = tsconfigFile ∨ file = viteConfigFile ∨
      file = tsMacroConfigFile ∨ strStartsWith file "src/" then file
  else "src/" ++ file

/-- `stripSrcPrefix` from the source: `file.replace(/^src\//, '')`, i.e.
drop one leading `src/` segment if present. -/
def stripSrcPrefix (file : String) : String :=
  if strStartsWith file "src/" then strDrop file 4 else file

/-- `fixURL` from the source: rewrite the public host to the mirrored host
by a first-occurrence string substitution. -/
def fixURL (url : String) : String :=
  strReplaceFirst url "https://sfc.vuejs" "https://play.vuejs"

/-! ## Files, templates and the store state -/

/-- The compiled-artifact slots of a virtual file (`File.compiled`). -/
structure CompiledSlots where
  js : String := ""
  css : String := ""
  ssr : String := ""
deriving DecidableEq

/-- The `File` class of the source.  `editorViewState` is an opaque blob
owned exclusively by the editor collaborator and never inspected by the
store, so it is omitted from the model. -/
structure File where
  filename : String
  code : String := ""
  hidden : Bool := false
  compiled : CompiledSlots := {}
deriving DecidableEq

/-- A preset's generated sources (the `Template` type of the source; the
preset catalog itself is an external collaborator). -/
structure Template where
  indexHtml : String
  welcome : String
  new : String
  viteConfig : String
deriving DecidableEq

/-- The store's reactive state: every ref of `useStore` that the claims
touch.  Presentation-only fields (`showOutput`, `outputMode`, `locale`,
`typescriptVersion`, `dependencyVersion`) play no role in any claim and
are omitted. -/
structure StoreState where
  files : List (String × File)
  activeFilename : String
  activeConfigFilename : String
  mainFile : String
  builtinImportMap : Json
  importMap : Json
  errors : List String
  vueVersion : Option String
  template : Template
  tsMacroConfigCode : String
deriving DecidableEq

/-! ## External collaborators, modelled from the spec -/

/-- Modelled from the spec: `utoa` (the `utils` module is not among the
source files) is "a reversible text-to-URL-safe-string encoding".  Only its
reversibility is relevant to any claim, so it is modelled as the
identity. -/
def utoa (s : String) : String := s

/-- Modelled from the spec: the inverse of `utoa`. -/
def atou (s : String) : String := s

/-- The fields of an optional JSON value (`{...a.imports}` on a possibly
missing field). -/
def optFields : Option Json → List (String × Json)
  | some j => j.objFields
  | none => []

/-- JS object-spread merge `{...a, ...b}`: `a`'s fields in order with `b`'s
values where `b` overrides, then `b`'s fresh keys. -/
def mergeFields (a b : List (String × Json)) : List (String × Json) :=
  b.foldl (fun acc p => listSet acc p.1 p.2) a

/-- Modelled from the spec: `mergeImportMap` (the import-map module is not
among the source files) "shallow merges `imports` (user overrides builtin
key-for-key) and `scopes` similarly". -/
def mergeImportMap (a b : Json) : Json :=
  .obj
    [("imports",
      .obj (mergeFields (optFields (jget a "imports")) (optFields (jget b "imports")))),
     ("scopes",
      .obj (mergeFields (optFields (jget a "scopes")) (optFields (jget b "scopes"))))]

/-! ## Store operations (from the source) -/

/-- The text `getImportMap` parses: the reserved import-map file's content,
or the literal `{}` when the file is absent or its content empty (the
source's `files.value[importMapFile]?.code || '{}'`). -/
def importMapSourceText (s : StoreState) : String :=
  let content := match listGet s.files importMapFile with
    | some f => f.code
    | none => ""
  if content = "" then "\x7b\x7d" else content

/-- `getImportMap` from the source: parse the reserved import-map file's
content; a parse failure records one diagnostic naming the file and the
parse error and yields the empty map. -/
def getImportMap (s : StoreState) : Json × StoreState :=
  match jsonParse (importMapSourceText s) with
  | .ok v => (v, s)
  | .error e =>
    (.obj [], { s with errors := ["Syntax error in " ++ importMapFile ++ ": " ++ e] })

/-- The URL rewrite `setImportMap` applies to a truthy import entry.  A
non-string truthy value would make the original throw (`.replace` on a
non-string); such values occur in no state the claims consider and are
modelled as unchanged. -/
def fixImportValue (v : Json) : Json :=
  match v with
  | .str u => .str (fixURL u)
  | other => other

/-- The in-place URL rewrite of `setImportMap`: every truthy entry of a
truthy `imports` object is passed through `fixURL`. -/
def fixImportMapUrls (map : Json) : Json :=
  match jget map "imports" with
  | some imp =>
    if jsTruthy imp then
      jsetKey map "imports"
        (match imp with
         | .obj fs =>
           .obj (fs.map (fun p => if jsTruthy p.2 then (p.1, fixImportValue p.2) else p))
         | other => other)
    else map
  | none => map

/-- `setImportMap` from the source: rewrite every truthy import-map URL
value with `fixURL`, stringify the map (pretty-printed in the original) and
write it as the reserved import-map file's content, creating the file if
absent (an existing file keeps its other attributes; a created one is not
hidden). -/
def setImportMap (map : Json) (s : StoreState) : StoreState :=
  let code := jsonStringify (fixImportMapUrls map)
  let files' := match listGet s.files importMapFile with
    | some f => listSet s.files importMapFile { f with code := code }
    | none => listSet s.files importMapFile { filename := importMapFile, code := code }
  { s with files := files' }

/-- `applyBuiltinImportMap` from the source: recompute the merged map from
the built-in layer and the parsed user layer, store it in `importMap` and
reapply it to the reserved import-map file. -/
def applyBuiltinImportMap (s : StoreState) : StoreState :=
  let user := (getImportMap s).1
  let s1 := (getImportMap s).2
  let merged := mergeImportMap s.builtinImportMap user
  setImportMap merged { s1 with importMap := merged }

/-- The four reserved filenames, in the order the source lists them. -/
def reservedFiles : List String :=
  [viteConfigFile, tsMacroConfigFile, tsconfigFile, importMapFile]

/-- `setActive` from the source: a reserved filename goes to the
active-config slot, every other filename to the regular active slot. -/
def setActive (filename : String) (s : StoreState) : StoreState :=
  if filename ∈ reservedFiles then { s with activeConfigFilename := filename }
  else { s with activeFilename := filename }

/-- `addFile` from the source: a bare name ending in `.tsx` is seeded from
the template's new-file boilerplate, any other bare name with empty code;
the file is inserted and, unless hidden, activated through `setActive`. -/
def addFile (arg : String ⊕ File) (s : StoreState) : StoreState :=
  let file : File := match arg with
    | .inl name =>
      { filename := name, code := if strEndsWith name ".tsx" then s.template.new else "" }
    | .inr f => f
  let s1 := { s with files := listSet s.files file.filename file }
  if !file.hidden then setActive file.filename s1 else s1

/-- `deleteFile` from the source, with the external confirmation prompt
injected as the boolean `confirmed`: without confirmation nothing happens;
with it, the active selection falls back to `mainFile` when the deleted
file was active, and the entry is removed. -/
def deleteFile (filename : String) (confirmed : Bool) (s : StoreState) : StoreState :=
  if !confirmed then s
  else
    let s1 :=
      if s.activeFilename = filename then { s with activeFilename := s.mainFile } else s
    { s1 with files := listDelete s1.files filename }

/-- `renameFile` from the source.  The two failure branches set a
single-element error list and change nothing else.  The success branch
renames the file record, rebuilds the mapping in iteration order with JS
assignment semantics, and updates `mainFile` and the active selection when
they pointed at the old name; when the renamed file was not active the
original recompiles it asynchronously through the external transform
collaborator, which changes no synchronous state. -/
def renameFile (oldFilename newFilename : String) (s : StoreState) : StoreState :=
  match listGet s.files oldFilename with
  | none =>
    { s with errors := ["Could not rename \"" ++ oldFilename ++ "\", file not found"] }
  | some file =>
    if newFilename = "" ∨ oldFilename = newFilename then
      { s with errors := ["Cannot rename \"" ++ oldFilename ++ "\" to \"" ++ newFilename ++ "\""] }
    else
      let renamed := { file with filename := newFilename }
      let newFiles := s.files.foldl
        (fun acc p =>
          if p.1 = oldFilename then listSet acc newFilename renamed
          else listSet acc p.1 p.2) []
      let s1 := { s with files := newFiles }
      let s2 := if s1.mainFile = oldFilename then { s1 with mainFile := newFilename } else s1
      if s2.activeFilename = oldFilename then { s2 with activeFilename := newFilename }
      else s2

/-- `getFiles` from the source: export every file under its name with the
`src/` prefix stripped, as a `{ code, hidden }` record. -/
def getFiles (s : StoreState) : List (String × Json) :=
  s.files.foldl
    (fun acc p =>
      listSet acc (stripSrcPrefix p.1)
        (.obj [("code", .str p.2.code), ("hidden", .bool p.2.hidden)])) []

/-- The string at a string-valued field of a JSON record (`x.code`):
absent — JS `undefined` — selects the consumer's default `''`.  A present
non-string would flow through raw in the original; none occurs in a value
the claims consider. -/
def jsonStrField (v : Json) (k : String) : String :=
  match jget v k with
  | some (.str c) => c
  | _ => ""

/-- The truthiness of a field of a JSON record (`x.hidden`): absent selects
the consumer's default `false`. -/
def jsonTruthyField (v : Json) (k : String) : Bool :=
  match jget v k with
  | some j => jsTruthy j
  | none => false

/-- The kept-entry test of `serialize`'s pruning loop: an entry survives
unless the built-in layer holds a strictly equal value for its key. -/
def keepEntry (builtinImports : Json) (p : String × Json) : Bool :=
  match jget builtinImports p.1 with
  | some bv => !(jsStrictEq bv p.2)
  | none => true

/-- The import-map pruning step of `serialize` from the source: delete from
the parsed map every `imports` entry strictly equal to the built-in layer's
entry, delete an `imports` left without keys, delete a `scopes` without
keys — key-lessness being `Object.keys`'s, which for the object case is
field-emptiness and also keeps a truthy non-object such as a nonempty
string.  A non-object `imports` value passes through unchanged: the
original's `Object.entries` iteration over it deletes nothing against the
claims' built-in maps, whose keys are bare specifier names, never indexes.
Only evaluated on a non-`null` parsed value: `serialize` models the
original's `TypeError` on `null.imports` before reaching this step. -/
def pruneImportMap (builtinMap parsed : Json) : Json :=
  let parsed1 := match jget parsed "imports" with
    | some imp =>
      if jsTruthy imp then
        let builtinImports : Json := match jget builtinMap "imports" with
          | some j => if jsTruthy j then j else .obj []
          | none => .obj []
        let pruned : Json := match imp with
          | .obj fs => .obj (fs.filter (keepEntry builtinImports))
          | other => other
        let parsedA := jsetKey parsed "imports" pruned
        if (jkeys pruned).length = 0 then jdelKey parsedA "imports" else parsedA
      else parsed
    | none => parsed
  match jget parsed1 "scopes" with
  | some sc =>
    if jsTruthy sc ∧ (jkeys sc).length = 0 then jdelKey parsed1 "scopes" else parsed1
  | none => parsed1

/-- `serialize` from the source.  `none` models the uncaught exceptions:
the `SyntaxError` of the unguarded `JSON.parse` when the import-map file's
content does not parse, and the `TypeError` of the immediately following
`parsed.imports` property access when it parses to `null`.  Otherwise:
prune import-map entries strictly equal to the built-in layer's, drop an
`imports` and a `scopes` left without keys, drop the whole import-map
export when the map itself has no keys (`Object.keys` keys, so a nonempty
string or array is kept), append `_version` when a version is selected,
and return `'#'` plus the URL-safe encoding of the JSON text. -/
def serialize (s : StoreState) : Option String :=
  let exported := getFiles s
  let step : Option (List (String × Json)) :=
    match listGet exported importMapFile with
    | none => some exported
    | some im =>
      match jsonParse (jsonStrField im "code") with
      | .error _ => none
      | .ok parsed =>
        if parsed = Json.null then none
        else
          let parsed2 := pruneImportMap s.builtinImportMap parsed
          some (if (jkeys parsed2).length ≠ 0 then
              listSet exported importMapFile (.obj [("code", .str (jsonStringify parsed2))])
            else listDelete exported importMapFile)
  match step with
  | none => none
  | some fields =>
    let fields2 := match s.vueVersion with
      | some v => if v ≠ "" then listSet fields "_version" (.str v) else fields
      | none => fields
    some ("#" ++ utoa (jsonStringify (.obj fields2)))

/-- `setFile` from the source: store `content` under the normalized
filename as a fresh file record. -/
def setFile (files : List (String × File)) (filename content : String)
    (hidden : Bool := false) : List (String × File) :=
  let normalized := addSrcPrefix filename
  listSet files normalized { filename := normalized, code := content, hidden := hidden }

/-- `setDefaultFile` from the source: the default template's four files
(the markup entry hidden). -/
def setDefaultFile (s : StoreState) : StoreState :=
  let f1 := setFile s.files indexHtmlFile s.template.indexHtml true
  let f2 := setFile f1 welcomeFile s.template.welcome
  let f3 := setFile f2 viteConfigFile s.template.viteConfig
  let f4 := setFile f3 tsMacroConfigFile s.tsMacroConfigCode
  { s with files := f4 }

/-- `deserialize` from the source: strip a leading `#`, reverse the
encoding, parse; on failure alert (external) and regenerate the default
file set; on success restore `_version` into the version field and every
other entry as a file, re-adding the `src/` prefix per filename. -/
def deserialize (serialized : String) (s : StoreState) : StoreState :=
  let text := if strStartsWith serialized "#" then strDrop serialized 1 else serialized
  match jsonParse (atou text) with
  | .error _ => setDefaultFile s
  | .ok saved =>
    saved.objFields.foldl
      (fun acc p =>
        if p.1 = "_version" then
          { acc with vueVersion := match p.2 with | .str v => some v | _ => none }
        else
          { acc with files :=
              setFile acc.files p.1 (jsonStrField p.2 "code") (jsonTruthyField p.2 "hidden") })
      s

/-- `setFiles` from the source, with the diagnostics of the awaited
external compiles injected as `diagnostics`: normalize the main-file
argument, seed the welcome file when the new set lacks (or has only a falsy
entry for) the main file, insert every given file normalized, replace the
error list, reapply the built-in import map and activate the main file. -/
def setFiles (newFiles : List (String × String)) (mainArg : Option String)
    (diagnostics : List String) (s : StoreState) : StoreState :=
  let mainFile := addSrcPrefix (mainArg.getD s.mainFile)
  let files0 : List (String × File) :=
    match listGet newFiles mainFile with
    | some c => if c = "" then setFile [] mainFile s.template.welcome else []
    | none => setFile [] mainFile s.template.welcome
  let files1 := newFiles.foldl (fun acc p => setFile acc p.1 p.2) files0
  let s1 := { s with mainFile := mainFile, files := files1, errors := diagnostics }
  let s2 := applyBuiltinImportMap s1
  setActive s2.mainFile s2

/-- The `tsconfig` object of the source. -/
def tsconfigJson : Json :=
  .obj [("compilerOptions", .obj
    [("allowJs", .bool true), ("checkJs", .bool true), ("jsx", .str "Preserve"),
     ("target", .str "ESNext"), ("module", .str "ESNext"),
     ("moduleResolution", .str "Bundler"),
     ("allowImportingTsExtensions", .bool true)])]

/-- The synchronous part of `init` from the source: create the tsconfig
file if absent and reset the error list; the per-file compiles it then
launches are asynchronous external calls that push diagnostics later and
change no other state. -/
def init (s : StoreState) : StoreState :=
  let tsconfigEntry : File := { filename := tsconfigFile, code := jsonStringify tsconfigJson }
  let s1 :=
    if (listGet s.files tsconfigFile).isSome then s
    else { s with files := listSet s.files tsconfigFile tsconfigEntry }
  { s1 with errors := [] }

/-- `useStore` from the source: construct a store, either from a serialized
state or from the default file set; then repoint `mainFile` at the first
`.tsx` file when its referent is missing (the original's `undefined!` on an
empty search is modelled as `""`), default the active file to the main
file, and apply the built-in import map.  The built-in map (derived by the
spec-modelled `useVueImportMap` from the version selection) and the
template arrive as explicit parameters. -/
def useStore (builtin : Json) (template : Template) (tsMacroCode : String)
    (serializedState : Option String) : StoreState :=
  let s0 : StoreState := {
    files := [], activeFilename := "", activeConfigFilename := viteConfigFile,
    mainFile := welcomeFile, builtinImportMap := builtin, importMap := .obj [],
    errors := [], vueVersion := none, template := template,
    tsMacroConfigCode := tsMacroCode }
  let s1 := match serializedState with
    | some str => deserialize str s0
    | none => setDefaultFile s0
  let s2 :=
    if (listGet s1.files s1.mainFile).isSome then s1
    else { s1 with mainFile :=
      ((s1.files.find? (fun p => strEndsWith p.1 ".tsx")).map (fun p => p.1)).getD "" }
  let s3 := { s2 with activeFilename := s2.mainFile }
  applyBuiltinImportMap s3

/-- Modelled from the spec: a concrete default preset for witnesses (the
preset catalog is an external collaborator; only the existence of some
template matters to the claims). -/
def defaultTemplate : Template := {
  indexHtml := "<div id=\"app\"></div>",
  welcome := "export default () => 1",
  new := "export default () => 2",
  viteConfig := "export default \x7b plugins: [] \x7d" }

/-- Modelled from the spec: a concrete built-in import map for witnesses
(the `useVueImportMap` module is not among the source files; the spec's
example built-in map has this shape). -/
def defaultBuiltinImportMap : Json :=
  .obj [("imports", .obj [("vue", .str "https://play.vuejs/vue.js")])]

/-- The source's default macro-config code. -/
def defaultTsMacroConfigCode : String := "export default \x7b plugins: [] \x7d"

/-! ## Reachability through the public store operations -/

/-- The states reachable through the store's public operations, starting
from a default-constructed store: each constructor is one operation of the
claim's list (external collaborators — the confirmation prompt and the
compile diagnostics — appear as arguments). -/
inductive Reachable : StoreState → Prop where
  | base (builtin : Json) (template : Template) (tsMacroCode : String) :
      Reachable (useStore builtin template tsMacroCode none)
  | addStep (s : StoreState) (arg : String ⊕ File) :
      Reachable s → Reachable (addFile arg s)
  | deleteStep (s : StoreState) (filename : String) (confirmed : Bool) :
      Reachable s → Reachable (deleteFile filename confirmed s)
  | renameStep (s : StoreState) (oldName newName : String) :
      Reachable s → Reachable (renameFile oldName newName s)
  | setFilesStep (s : StoreState) (nf : List (String × String))
      (m : Option String) (d : List String) :
      Reachable s → Reachable (setFiles nf m d s)
  | deserializeStep (s : StoreState) (str : String) :
      Reachable s → Reachable (deserialize str s)
  | initStep (s : StoreState) : Reachable s → Reachable (init s)

/-- Reachability as `Reachable`, except that a confirmed `deleteFile` of the
main file itself is never taken. -/
inductive SafeReachable : StoreState → Prop where
  | base (builtin : Json) (template : Template) (tsMacroCode : String) :
      SafeReachable (useStore builtin template tsMacroCode none)
  | addStep (s : StoreState) (arg : String ⊕ File) :
      SafeReachable s → SafeReachable (addFile arg s)
  | deleteStep (s : StoreState) (filename : String) (confirmed : Bool)
      (h : confirmed = false ∨ filename ≠ s.mainFile) :
      SafeReachable s → SafeReachable (deleteFile filename confirmed s)
  | renameStep (s : StoreState) (oldName newName : String) :
      SafeReachable s → SafeReachable (renameFile oldName newName s)
  | setFilesStep (s : StoreState) (nf : List (String × String))
      (m : Option String) (d : List String) :
      SafeReachable s → SafeReachable (setFiles nf m d s)
  | deserializeStep (s : StoreState) (str : String) :
      SafeReachable s → SafeReachable (deserialize str s)
  | initStep (s : StoreState) : SafeReachable s → SafeReachable (init s)

/-! ## Claim-side reference definitions

These follow the words of the spec's sentences (for refinement-style
claims) and are compared with the definitions translated from the
source. -/

/-- The claim's description of the import-map URL rewrite: every string
value of the map's `imports` object is rewritten by the fixed
first-occurrence host substitution (a value without the public host is
unchanged, the substitution finding nothing). -/
def rewriteImports (map : Json) : Json :=
  match jget map "imports" with
  | some (.obj fs) =>
    jsetKey map "imports"
      (.obj (fs.map (fun p =>
        (p.1, match p.2 with | .str u => .str (fixURL u) | v => v))))
  | _ => map

/-- A primitive JSON value: one compared by value under JS strict
equality (arrays and objects compare by reference). -/
def Json.isPrimitive : Json → Bool
  | .null => true
  | .bool _ => true
  | .num _ => true
  | .str _ => true
  | _ => false

/-- The claim's description of the import-map pruning inside `serialize`:
drop every `imports` entry whose value equals the built-in map's value for
the same key — equality read structurally on primitive values, which is
what JS strict equality amounts to — then drop an `imports` object and a
`scopes` object left without keys (`Object.keys` keys, matching the
claim's "empty object" for the object case). -/
def pruneImportMapSpec (builtinMap parsed : Json) : Json :=
  let builtinImports : Json := match jget builtinMap "imports" with
    | some j => if jsTruthy j then j else .obj []
    | none => .obj []
  let p1 := match jget parsed "imports" with
    | some imp =>
      if jsTruthy imp then
        let keptFields := (imp.objFields).filter (fun p =>
          !(p.2.isPrimitive && decide (jget builtinImports p.1 = some p.2)))
        let kept : Json := match imp with
          | .obj _ => .obj keptFields
          | other => other
        if (jkeys kept).length = 0 then jdelKey (jsetKey parsed "imports" kept) "imports"
        else jsetKey parsed "imports" kept
      else parsed
    | none => parsed
  match jget p1 "scopes" with
  | some sc => if jsTruthy sc ∧ (jkeys sc).length = 0 then jdelKey p1 "scopes" else p1
  | none => p1

/-- The claim's clause "appends the version marker under key `_version` if
a framework version is selected" (a selected version is a truthy, i.e.
non-empty, string). -/
def versionFieldsSpec (v : Option String) (fields : List (String × Json)) :
    List (String × Json) :=
  match v with
  | some ver => if ver ≠ "" then listSet fields "_version" (.str ver) else fields
  | none => fields

/-- The claim's description of the whole export: all files stripped of the
`src/` prefix; the import-map entry replaced by its pruned content — or
dropped when nothing of it remains; the `_version` marker appended when a
framework version is selected. -/
def exportFieldsSpec (s : StoreState) (parsed : Json) : List (String × Json) :=
  let pruned := pruneImportMapSpec s.builtinImportMap parsed
  let base :=
    if (jkeys pruned).length ≠ 0 then
      listSet (getFiles s) importMapFile (.obj [("code", .str (jsonStringify pruned))])
    else listDelete (getFiles s) importMapFile
  versionFieldsSpec s.vueVersion base

/-- The per-entry action of `deserialize`'s restore loop, named so that the
round-trip development can reason about the fold: a `_version` entry selects
the version, every other entry stores a file under the re-prefixed name. -/
def restoreEntry (acc : StoreState) (p : String × Json) : StoreState :=
  if p.1 = "_version" then
    { acc with vueVersion := match p.2 with | .str v => some v | _ => none }
  else
    { acc with files :=
        setFile acc.files p.1 (jsonStrField p.2 "code") (jsonTruthyField p.2 "hidden") }

/-- The action of `restoreEntry` on the file mapping alone. -/
def restoreFileEntry (fs : List (String × File)) (p : String × Json) :
    List (String × File) :=
  if p.1 = "_version" then fs
  else setFile fs p.1 (jsonStrField p.2 "code") (jsonTruthyField p.2 "hidden")

/-! ## Concrete stores for witnesses and counterexamples -/

/-- The default-constructed store over the spec-modelled default preset. -/
def store0 : StoreState :=
  useStore defaultBuiltinImportMap defaultTemplate defaultTsMacroConfigCode none

/-- A store whose main file is the second of two `.tsx` files (reached by
`setFiles` with an explicit main-file argument). -/
def storeSecondMain : StoreState :=
  setFiles [("src/a.tsx", "A"), ("src/b.tsx", "B")] (some "b.tsx") [] store0

/-- An import-map file record holding the given content. -/
def importMapFileWith (content : String) : File :=
  { filename := importMapFile, code := content }

/-- A store whose import-map file content is not valid JSON. -/
def storeBadImportMap : StoreState :=
  { store0 with
    files := listSet store0.files importMapFile (importMapFileWith "\x7b") }

/-- A store whose import-map file content is the empty string. -/
def storeEmptyImportMap : StoreState :=
  { store0 with
    files := listSet store0.files importMapFile (importMapFileWith "") }

/-- A store whose import-map file content is the JSON text `null`. -/
def storeNullImportMap : StoreState :=
  { store0 with
    files := listSet store0.files importMapFile (importMapFileWith "null") }

/-- A two-file store for the rename claims. -/
def storeAB : StoreState :=
  { store0 with files :=
      [("a", { filename := "a", code := "A" }), ("b", { filename := "b", code := "B" })] }


/-! ## Lemmas: association lists -/

theorem listGet_cons {α : Type} (x : String × α) (l : List (String × α)) (k : String) :
    listGet (x :: l) k = if x.1 = k then some x.2 else listGet l k := by
  by_cases h : x.1 = k
  · rw [listGet, List.find?_cons_of_pos _ (by simpa using h), if_pos h]
    rfl
  · rw [listGet, List.find?_cons_of_neg _ (by simpa using h), if_neg h, listGet]
theorem listGet_setMap {α : Type} (l : List (String × α)) (k k' : String) (v : α) :
    listGet (l.map (fun p => if p.1 = k then (k, v) else p)) k' =
      if k' = k then (if l.any (fun p => p.1 == k) then some v else none)
      else listGet l k' := by
  induction l with
  | nil => by_cases h : k' = k <;> simp [listGet, h]
  | cons x l ih =>
    simp only [List.map_cons, List.any_cons]
    by_cases hx : x.1 = k
    · by_cases h : k' = k
      · subst h
        simp [listGet_cons, hx, ih]
      · have h2 : ¬ (k = k') := fun hh => h hh.symm
        have h3 : ¬ (x.1 = k') := by rw [hx]; exact h2
        simp [listGet_cons, hx, h, h2, h3, ih]
    · by_cases h : k' = k
      · subst h
        have hxb : (x.1 == k') = false := by simpa using hx
        rw [listGet_cons, if_neg hx, ih]
        simp only [hxb, Bool.false_or, eq_self_iff_true, if_true]
        rw [if_neg hx]
      · simp [listGet_cons, hx, h, ih]
theorem listGet_listSet {α : Type} (l : List (String × α)) (k k' : String) (v : α) :
    listGet (listSet l k v) k' = if k' = k then some v else listGet l k' := by
  by_cases hany : l.any (fun p => p.1 == k)
  · rw [listSet, if_pos hany]
    have := listGet_setMap l k k' v
    rw [hany] at this
    simp only [if_true] at this
    have heq : (l.map (fun p => if p.1 == k then (k, v) else p)) =
        (l.map (fun p => if p.1 = k then (k, v) else p)) := by
      apply List.map_congr_left
      intro p _
      by_cases hp : p.1 = k <;> simp [hp]
    rw [heq, this]
  · rw [listSet, if_neg hany]
    have hnone : List.find? (fun p : String × α => p.1 == k) l = none := by
      rw [List.find?_eq_none]
      intro x hx
      by_contra hc
      exact hany (List.any_eq_true.2 ⟨x, hx, by simpa using hc⟩)
    by_cases h : k' = k
    · subst h
      rw [listGet, List.find?_append, hnone, Option.none_or,
        List.find?_cons_of_pos _ (by simp), if_pos rfl]
      rfl
    · have hlast : List.find? (fun p : String × α => p.1 == k') [(k, v)] = none := by
        rw [List.find?_cons_of_neg _ (by simpa using fun hh => h hh.symm)]
        rfl
      rw [listGet, List.find?_append, hlast, Option.or_none, if_neg h, listGet]
theorem listGet_listDelete {α : Type} (l : List (String × α)) (k k' : String) :
    listGet (listDelete l k) k' = if k' = k then none else listGet l k' := by
  induction l with
  | nil => by_cases h : k' = k <;> simp [listGet, listDelete, h]
  | cons x l ih =>
    rw [listDelete, List.filter_cons]
    rw [listDelete] at ih
    by_cases hx : x.1 = k
    · have hxb : (!(x.1 == k)) = false := by simpa using hx
      rw [hxb, if_neg (by simp), ih, listGet_cons]
      by_cases h : k' = k
      · rw [if_pos h, if_pos h]
      · have h3 : ¬ (x.1 = k') := by rw [hx]; exact fun hh => h hh.symm
        rw [if_neg h, if_neg h, if_neg h3]
    · have hxb : (!(x.1 == k)) = true := by simpa using hx
      rw [hxb, if_pos rfl, listGet_cons, listGet_cons, ih]
      by_cases hk : x.1 = k'
      · have h : ¬ (k' = k) := fun hh => hx (by rw [hk, hh])
        rw [if_pos hk, if_neg h, if_pos hk]
      · rw [if_neg hk, if_neg hk]
theorem listGet_isSome_iff_mem {α : Type} (l : List (String × α)) (k : String) :
    (listGet l k).isSome = true ↔ k ∈ listKeys l := by
  induction l with
  | nil => simp [listGet, listKeys]
  | cons x l ih =>
    rw [listGet_cons]
    show _ ↔ k ∈ x.1 :: listKeys l
    by_cases h : x.1 = k
    · simp [h]
    · rw [if_neg h, List.mem_cons]
      rw [ih]
      constructor
      · exact fun hh => Or.inr hh
      · rintro (hh | hh)
        · exact absurd hh.symm h
        · exact hh
theorem listKeys_listSet {α : Type} (l : List (String × α)) (k : String) (v : α) :
    listKeys (listSet l k v) =
      if l.any (fun p => p.1 == k) then listKeys l else listKeys l ++ [k] := by
  by_cases hany : l.any (fun p => p.1 == k)
  · rw [listSet, if_pos hany, if_pos hany, listKeys, listKeys, List.map_map]
    apply List.map_congr_left
    intro p _
    by_cases hp : p.1 = k <;> simp [hp]
  · rw [listSet, if_neg hany, if_neg hany, listKeys, listKeys, List.map_append]
    rfl
theorem mem_listKeys_listSet {α : Type} (l : List (String × α)) (k k' : String)
    (v : α) (h : k' ∈ listKeys l) : k' ∈ listKeys (listSet l k v) := by
  rw [listKeys_listSet]
  by_cases hany : l.any (fun p => p.1 == k)
  · rwa [if_pos hany]
  · rw [if_neg hany]
    exact List.mem_append_left _ h

/-! ## Lemmas: filename normalization -/

theorem strStartsWith_src_append (s : String) : strStartsWith ("src/" ++ s) "src/" = true := by
  rw [strStartsWith, List.isPrefixOf_iff_prefix, String.data_append]
  exact List.prefix_append _ _

theorem strDrop_src_append (s : String) : strDrop ("src/" ++ s) 4 = s := by
  apply String.ext
  show (("src/" ++ s).data).drop 4 = s.data
  rw [String.data_append]
  exact List.drop_left ("src/").data _

theorem src_append_ne (f : String) : ("src/" ++ f) ≠ f := by
  intro h
  have := congrArg (fun s : String => s.data.length) h
  simp [String.data_append] at this
  omega

theorem stripSrcPrefix_src_append (s : String) : stripSrcPrefix ("src/" ++ s) = s := by
  rw [stripSrcPrefix, if_pos (by rw [strStartsWith_src_append]), strDrop_src_append]

theorem stripSrcPrefix_of_not (f : String) (h : strStartsWith f "src/" = false) :
    stripSrcPrefix f = f := by
  rw [stripSrcPrefix, if_neg (by rw [h]; exact Bool.false_ne_true)]

theorem addSrcPrefix_eq_self_iff (f : String) :
    addSrcPrefix f = f ↔
      (f = importMapFile ∨ f = tsconfigFile ∨ f = viteConfigFile ∨
        f = tsMacroConfigFile ∨ strStartsWith f "src/" = true) := by
  constructor
  · intro h
    by_contra hc
    rw [addSrcPrefix, if_neg (by simpa using hc)] at h
    exact src_append_ne f h
  · intro h
    rw [addSrcPrefix, if_pos (by simpa using h)]

theorem addSrcPrefix_of_neg (f : String)
    (h : ¬ (f = importMapFile ∨ f = tsconfigFile ∨ f = viteConfigFile ∨
      f = tsMacroConfigFile ∨ strStartsWith f "src/" = true)) :
    addSrcPrefix f = "src/" ++ f := by
  rw [addSrcPrefix, if_neg (by simpa using h)]

theorem addSrcPrefix_idem (f : String) :
    addSrcPrefix (addSrcPrefix f) = addSrcPrefix f := by
  by_cases h : f = importMapFile ∨ f = tsconfigFile ∨ f = viteConfigFile ∨
      f = tsMacroConfigFile ∨ strStartsWith f "src/" = true
  · rw [(addSrcPrefix_eq_self_iff f).2 h, (addSrcPrefix_eq_self_iff f).2 h]
  · rw [addSrcPrefix_of_neg f h]
    exact (addSrcPrefix_eq_self_iff _).2 (Or.inr (Or.inr (Or.inr (Or.inr
      (strStartsWith_src_append f)))))

theorem stripSrcPrefix_addSrcPrefix (f : String) :
    stripSrcPrefix (addSrcPrefix f) = stripSrcPrefix f := by
  by_cases h : f = importMapFile ∨ f = tsconfigFile ∨ f = viteConfigFile ∨
      f = tsMacroConfigFile ∨ strStartsWith f "src/" = true
  · rw [(addSrcPrefix_eq_self_iff f).2 h]
  · rw [addSrcPrefix_of_neg f h, stripSrcPrefix_src_append]
    have hns : strStartsWith f "src/" = false := by
      rcases Bool.eq_false_or_eq_true (strStartsWith f "src/") with hb | hb
      · exact absurd (Or.inr (Or.inr (Or.inr (Or.inr hb)))) h
      · exact hb
    rw [stripSrcPrefix_of_not f hns]

/-- **C10.** The filename normalization `addSrcPrefix` is idempotent; it is
the identity exactly on the four reserved filenames and on names already
starting with `src/`; `stripSrcPrefix` removes exactly one leading `src/`
segment when one is present and nothing otherwise; and
`stripSrcPrefix (addSrcPrefix f) = stripSrcPrefix f` for every filename. -/
theorem addSrcPrefix_stripSrcPrefix_algebra :
    (∀ f : String, addSrcPrefix (addSrcPrefix f) = addSrcPrefix f) ∧
    (∀ f : String, addSrcPrefix f = f ↔
      (f = importMapFile ∨ f = tsconfigFile ∨ f = viteConfigFile ∨
        f = tsMacroConfigFile ∨ strStartsWith f "src/" = true)) ∧
    (∀ s : String, stripSrcPrefix ("src/" ++ s) = s) ∧
    (∀ f : String, strStartsWith f "src/" = false → stripSrcPrefix f = f) ∧
    (∀ f : String, stripSrcPrefix (addSrcPrefix f) = stripSrcPrefix f) :=
  ⟨addSrcPrefix_idem, addSrcPrefix_eq_self_iff, stripSrcPrefix_src_append,
    stripSrcPrefix_of_not, stripSrcPrefix_addSrcPrefix⟩

/-! ## Results: rename failure (C2) -/

/-- **C2.** For every pair `(old, new)` with `old` not a key of the file
mapping, or `new` empty, or `old = new`, `renameFile` sets the error list
to exactly one message and changes nothing else: the whole state equals the
input with only the error list replaced, and that list has length one
(being a total function, the model cannot throw). -/
theorem renameFile_failure (s : StoreState) (oldName newName : String)
    (h : listGet s.files oldName = none ∨ newName = "" ∨ oldName = newName) :
    renameFile oldName newName s =
      { s with errors := (renameFile oldName newName s).errors } ∧
    (renameFile oldName newName s).errors.length = 1 := by
  cases hy : listGet s.files oldName with
  | none =>
    simp only [renameFile, hy]
    exact ⟨trivial, rfl⟩
  | some file =>
    have hcond : newName = "" ∨ oldName = newName := by
      rcases h with h | h | h
      · rw [h] at hy
        exact absurd hy (by simp)
      · exact Or.inl h
      · exact Or.inr h
    simp only [renameFile, hy, if_pos hcond]
    exact ⟨trivial, rfl⟩

/-- Witness for C2 at a concrete input: renaming a nonexistent file of the
two-file store fails with a single diagnostic and no other change. -/
theorem renameFile_failure_witness :
    renameFile "zzz" "q" storeAB =
      { storeAB with errors := (renameFile "zzz" "q" storeAB).errors } ∧
    (renameFile "zzz" "q" storeAB).errors.length = 1 :=
  renameFile_failure storeAB "zzz" "q" (Or.inl (by decide))

/-! ## Results: delete with confirmation (C6) -/

/-- **C6.** `deleteFile` removes the entry exactly when the injected
confirmation returns yes: with confirmation, the filename resolves to
nothing and every other key is untouched, and the active filename falls
back to `mainFile` when the deleted file was active; without confirmation
the state is unchanged entirely. -/
theorem deleteFile_spec (s : StoreState) (filename : String) :
    (∀ k, listGet (deleteFile filename true s).files k =
      if k = filename then none else listGet s.files k) ∧
    (deleteFile filename true s).activeFilename =
      (if s.activeFilename = filename then s.mainFile else s.activeFilename) ∧
    (deleteFile filename true s).mainFile = s.mainFile ∧
    deleteFile filename false s = s := by
  refine ⟨?_, ?_, ?_, rfl⟩
  · intro k
    by_cases h : s.activeFilename = filename <;>
      simp [deleteFile, h, listGet_listDelete]
  · by_cases h : s.activeFilename = filename <;> simp [deleteFile, h]
  · by_cases h : s.activeFilename = filename <;> simp [deleteFile, h]

/-! ## Results: addFile (C5) -/

/-- **C5 counterexample.** Adding the reserved filename `tsconfig.json` to
the default store does not make it the active file: the active filename is
unchanged (the reserved name is routed to the active-config slot instead),
refuting the claim that every non-hidden added file becomes the active
file. -/
theorem addFile_reserved_counterexample :
    (addFile (Sum.inl tsconfigFile) store0).activeFilename ≠ tsconfigFile ∧
    (addFile (Sum.inl tsconfigFile) store0).activeFilename = store0.activeFilename := by
  constructor
  · decide
  · rfl

/-- **C5 (amended).** For every filename string `f` passed to `addFile`:
`f` becomes a key of the file mapping; the new file's code is the current
template's new-file boilerplate exactly when `f` ends in `.tsx` and empty
otherwise, and the file is not hidden; and `f` becomes the active file —
routed to the active-config slot instead when `f` is one of the four
reserved filenames, per `setActive`. -/
theorem addFile_string_spec (s : StoreState) (name : String) :
    listGet (addFile (Sum.inl name) s).files name =
      some { filename := name,
             code := if strEndsWith name ".tsx" then s.template.new else "" } ∧
    (addFile (Sum.inl name) s).activeConfigFilename =
      (if name ∈ reservedFiles then name else s.activeConfigFilename) ∧
    (addFile (Sum.inl name) s).activeFilename =
      (if name ∈ reservedFiles then s.activeFilename else name) ∧
    (addFile (Sum.inl name) s).mainFile = s.mainFile := by
  by_cases h : name ∈ reservedFiles <;>
    simp [addFile, setActive, h, listGet_listSet]

/-! ## Lemmas: folds of JS assignments over fresh keys -/

theorem listKeys_append {α : Type} (a b : List (String × α)) :
    listKeys (a ++ b) = listKeys a ++ listKeys b := by
  simp [listKeys]

theorem listSet_fresh {α : Type} (l : List (String × α)) (k : String) (v : α)
    (h : k ∉ listKeys l) : listSet l k v = l ++ [(k, v)] := by
  rw [listSet, if_neg]
  intro hc
  rcases List.any_eq_true.1 hc with ⟨p, hp, hpk⟩
  have : p.1 = k := by simpa using hpk
  exact h (this ▸ List.mem_map_of_mem _ hp)

theorem foldl_congr_mem {α β : Type} (l : List α) (f g : β → α → β) (b : β)
    (h : ∀ x ∈ l, ∀ acc, f acc x = g acc x) : l.foldl f b = l.foldl g b := by
  induction l generalizing b with
  | nil => rfl
  | cons x l ih =>
    rw [List.foldl_cons, List.foldl_cons, h x (by simp)]
    exact ih _ (fun y hy acc => h y (by simp [hy]) acc)

theorem foldl_listSet_of_fresh {α : Type} (g : (String × α) → (String × α))
    (l : List (String × α)) (acc : List (String × α))
    (hdisj : ∀ p ∈ l, (g p).1 ∉ listKeys acc)
    (hnd : ((l.map g).map Prod.fst).Nodup) :
    l.foldl (fun a p => listSet a (g p).1 (g p).2) acc = acc ++ l.map g := by
  induction l generalizing acc with
  | nil => simp
  | cons x l ih =>
    rw [List.foldl_cons, listSet_fresh _ _ _ (hdisj x (by simp)), List.map_cons]
    rw [List.map_cons] at hnd
    have hnd' := (List.nodup_cons.1 hnd).2
    have hhead := (List.nodup_cons.1 hnd).1
    rw [ih (acc ++ [g x]) ?_ hnd']
    · simp
    · intro p hp
      rw [listKeys_append, List.mem_append]
      rintro (hc | hc)
      · exact hdisj p (by simp [hp]) hc
      · have : (g p).1 = (g x).1 := by simpa [listKeys] using hc
        exact hhead (this ▸ List.mem_map_of_mem _ (List.mem_map_of_mem _ hp))

theorem nodup_keys_rename (ks : List String) (o n : String)
    (hnd : ks.Nodup) (hn : n ∉ ks) :
    (ks.map (fun k => if k = o then n else k)).Nodup := by
  induction ks with
  | nil => simp
  | cons k ks ih =>
    rw [List.map_cons, List.nodup_cons]
    refine ⟨?_, ih (List.nodup_cons.1 hnd).2 (fun hc => hn (by simp [hc]))⟩
    intro hc
    rcases List.mem_map.1 hc with ⟨j, hj, hjeq⟩
    by_cases hk : k = o
    · by_cases hjo : j = o
      · exact (List.nodup_cons.1 hnd).1 (by rw [hk, ← hjo]; exact hj)
      · rw [if_neg hjo] at hjeq
        rw [if_pos hk] at hjeq
        exact hn (by simp [← hjeq, hj])
    · rw [if_neg hk] at hjeq
      by_cases hjo : j = o
      · rw [if_pos hjo] at hjeq
        exact hn (by simp [hjeq])
      · rw [if_neg hjo] at hjeq
        exact (List.nodup_cons.1 hnd).1 (hjeq ▸ hj)

theorem listGet_eq_of_mem_nodup {α : Type} (l : List (String × α)) (k : String)
    (v : α) (hnd : (listKeys l).Nodup) (hget : listGet l k = some v) :
    ∀ p ∈ l, p.1 = k → p.2 = v := by
  induction l with
  | nil => simp
  | cons x l ih =>
    intro p hp hpk
    rw [listGet_cons] at hget
    rcases List.mem_cons.1 hp with hp | hp
    · subst hp
      rw [if_pos hpk] at hget
      exact Option.some.inj hget
    · have hnd2 : x.1 ∉ listKeys l ∧ (listKeys l).Nodup := by
        rw [listKeys, List.map_cons] at hnd
        exact ⟨(List.nodup_cons.1 hnd).1, (List.nodup_cons.1 hnd).2⟩
      by_cases hx : x.1 = k
      · exfalso
        have hmem : k ∈ listKeys l := hpk ▸ List.mem_map_of_mem _ hp
        exact hnd2.1 (hx ▸ hmem)
      · rw [if_neg hx] at hget
        exact ih hnd2.2 hget p hp hpk

/-! ## Results: rename success (C3) -/

theorem listGet_map_rename (l : List (String × File)) (o n : String) (f : File)
    (hf : listGet l o = some f) (hcol : n ∉ listKeys l) :
    listGet (l.map (fun p => if p.1 = o then (n, { p.2 with filename := n }) else p)) n =
      some { f with filename := n } := by
  induction l with
  | nil => simp [listGet] at hf
  | cons x l ih =>
    have hcoltail : n ∉ listKeys l := by
      intro hc
      apply hcol
      rw [listKeys, List.map_cons]
      exact List.mem_cons_of_mem _ hc
    rw [List.map_cons]
    by_cases hx : x.1 = o
    · rw [if_pos hx, listGet_cons]
      rw [listGet_cons, if_pos hx] at hf
      simp [Option.some.inj hf]
    · rw [if_neg hx, listGet_cons, if_neg ?hxn]
      case hxn =>
        intro hc
        apply hcol
        rw [listKeys, List.map_cons, ← hc]
        exact List.mem_cons_self _ _
      rw [listGet_cons, if_neg hx] at hf
      exact ih hf hcoltail

/-- **C3 counterexample.** Renaming `a` to `b` in a store that already has
a file `b` does not produce a mapping whose keys are the original keys with
`a` replaced by `b` at its position: the rebuild's two writes to the key
`b` collapse into the single slot where the first write landed, and the
later write's value wins — here the renamed file is written first and the
pre-existing file `b` is written over it, leaving one entry `b` holding
the pre-existing file. -/
theorem renameFile_collision_counterexample :
    listKeys (renameFile "a" "b" storeAB).files ≠
      (listKeys storeAB.files).map (fun k => if k = "a" then "b" else k) ∧
    (renameFile "a" "b" storeAB).files =
      [("b", { filename := "b", code := "B" })] := by
  decide

/-- **C3 (amended).** For every existing filename `old` and new filename
that is non-empty, different from `old` and not already a key of the
mapping (keys being unique, as in the original's JS object), `renameFile`
rebuilds the mapping with the same key iteration order except that the
entry formerly keyed `old` is keyed `new` at its original position with its
`filename` field set to `new`, and updates `mainFile` to `new` exactly when
it was `old`. -/
theorem renameFile_success (s : StoreState) (oldName newName : String) (f : File)
    (hf : listGet s.files oldName = some f)
    (hn : newName ≠ "") (hne : oldName ≠ newName)
    (hnd : (listKeys s.files).Nodup)
    (hcol : newName ∉ listKeys s.files) :
    (renameFile oldName newName s).files =
      s.files.map (fun p =>
        if p.1 = oldName then (newName, { p.2 with filename := newName }) else p) ∧
    listGet (renameFile oldName newName s).files newName =
      some { f with filename := newName } ∧
    (renameFile oldName newName s).mainFile =
      (if s.mainFile = oldName then newName else s.mainFile) := by
  have hcond : ¬ (newName = "" ∨ oldName = newName) := by
    rintro (h | h)
    exacts [hn h, hne h]
  have hfiles : (renameFile oldName newName s).files =
      s.files.foldl (fun acc p =>
        if p.1 = oldName then listSet acc newName { f with filename := newName }
        else listSet acc p.1 p.2) [] := by
    by_cases h1 : s.mainFile = oldName <;>
      by_cases h2 : s.activeFilename = oldName <;>
        simp [renameFile, hf, if_neg hcond, h1, h2]
  have hmain : (renameFile oldName newName s).mainFile =
      (if s.mainFile = oldName then newName else s.mainFile) := by
    by_cases h1 : s.mainFile = oldName <;>
      by_cases h2 : s.activeFilename = oldName <;>
        simp [renameFile, hf, if_neg hcond, h1, h2]
  have hbody : s.files.foldl (fun acc p =>
      if p.1 = oldName then listSet acc newName { f with filename := newName }
      else listSet acc p.1 p.2) [] =
      s.files.foldl (fun acc p =>
        listSet acc
          (if p.1 = oldName then (newName, { p.2 with filename := newName }) else p).1
          (if p.1 = oldName then (newName, { p.2 with filename := newName }) else p).2) [] := by
    apply foldl_congr_mem
    intro p hp acc
    by_cases hpk : p.1 = oldName
    · rw [if_pos hpk, if_pos hpk]
      rw [listGet_eq_of_mem_nodup s.files oldName f hnd hf p hp hpk]
    · rw [if_neg hpk, if_neg hpk]
  have hkeysmap : ((s.files.map (fun p =>
      if p.1 = oldName then (newName, { p.2 with filename := newName }) else p)).map
        Prod.fst).Nodup := by
    have heq : (s.files.map (fun p =>
        if p.1 = oldName then (newName, { p.2 with filename := newName }) else p)).map
          Prod.fst =
        (listKeys s.files).map (fun k => if k = oldName then newName else k) := by
      rw [List.map_map, listKeys, List.map_map]
      apply List.map_congr_left
      intro p _
      by_cases hpk : p.1 = oldName <;> simp [Function.comp, hpk]
    rw [heq]
    exact nodup_keys_rename _ _ _ hnd hcol
  have hmapeq : (renameFile oldName newName s).files =
      s.files.map (fun p =>
        if p.1 = oldName then (newName, { p.2 with filename := newName }) else p) := by
    rw [hfiles, hbody, foldl_listSet_of_fresh _ _ _ (by simp [listKeys]) hkeysmap]
    simp
  refine ⟨hmapeq, ?_, hmain⟩
  rw [hmapeq]
  exact listGet_map_rename s.files oldName newName f hf hcol

/-- Witness for the amended C3 at a concrete input: renaming `a` to `c` in
the two-file store. -/
theorem renameFile_success_witness :
    (listGet storeAB.files "a" = some { filename := "a", code := "A" } ∧
      ("c" : String) ≠ "" ∧ ("a" : String) ≠ "c" ∧
      (listKeys storeAB.files).Nodup ∧ "c" ∉ listKeys storeAB.files) ∧
    ((renameFile "a" "c" storeAB).files =
      storeAB.files.map (fun p =>
        if p.1 = "a" then ("c", { p.2 with filename := "c" }) else p) ∧
    listGet (renameFile "a" "c" storeAB).files "c" =
      some { filename := "c", code := "A" } ∧
    (renameFile "a" "c" storeAB).mainFile =
      (if storeAB.mainFile = "a" then "c" else storeAB.mainFile)) :=
  ⟨⟨by decide, by decide, by decide, by decide, by decide⟩,
    renameFile_success storeAB "a" "c" { filename := "a", code := "A" }
      (by decide) (by decide) (by decide) (by decide) (by decide)⟩

/-! ## Results: the effective import map (C7) -/

/-- **C7 counterexample.** An import-map file whose content is the empty
string — which is not valid JSON — produces no diagnostic at all:
`getImportMap` treats empty content like an absent file (the `|| '{}'`
fallback), returns the empty map and leaves the store, its error list
included, unchanged.  This refutes the claim for that content. -/
theorem getImportMap_empty_content_counterexample :
    (listGet storeEmptyImportMap.files importMapFile).map File.code = some "" ∧
    (∀ v, jsonParse "" ≠ Except.ok v) ∧
    getImportMap storeEmptyImportMap = (Json.obj [], storeEmptyImportMap) := by
  refine ⟨by decide, ?_, by decide⟩
  intro v
  rw [show jsonParse "" = Except.error "unexpected end of input" from rfl]
  exact fun h => Except.noConfusion h

/-- **C7 (amended).** When the reserved import-map file's content is
non-empty and fails to parse, `getImportMap` records exactly one
diagnostic naming the file and the parse error, returns the empty map and
changes nothing else (being total, it cannot throw); when the file is
absent it returns the empty map with no diagnostic and no state change. -/
theorem getImportMap_spec (s : StoreState) :
    (∀ f e, listGet s.files importMapFile = some f → f.code ≠ "" →
      jsonParse f.code = .error e →
      getImportMap s = (Json.obj [],
        { s with errors := ["Syntax error in " ++ importMapFile ++ ": " ++ e] })) ∧
    (listGet s.files importMapFile = none →
      getImportMap s = (Json.obj [], s)) := by
  constructor
  · intro f e hm hne hp
    have htext : importMapSourceText s = f.code := by
      simp only [importMapSourceText, hm, if_neg hne]
    simp only [getImportMap, htext, hp]
  · intro hm
    have htext : importMapSourceText s = "\x7b\x7d" := by
      simp only [importMapSourceText, hm, eq_self_iff_true, if_true]
    simp only [getImportMap, htext]
    rw [show jsonParse "\x7b\x7d" = Except.ok (Json.obj []) from rfl]

/-! ## Results: applying an import map (C9) -/

theorem fixURL_empty : fixURL "" = "" := rfl

theorem listSet_self_of_nodup {α : Type} (l : List (String × α)) (k : String)
    (v : α) (hnd : (listKeys l).Nodup) (h : listGet l k = some v) :
    listSet l k v = l := by
  rcases Option.map_eq_some'.1 h with ⟨p, hfind, hp2⟩
  have hpk := List.find?_some hfind
  have hany : l.any (fun q => q.1 == k) = true :=
    List.any_eq_true.2 ⟨p, List.mem_of_find?_eq_some hfind, hpk⟩
  rw [listSet, if_pos hany]
  have hfix : ∀ q ∈ l, (if q.1 == k then (k, v) else q) = q := by
    intro q hq
    by_cases hqk : q.1 = k
    · have hq2 : q.2 = v := listGet_eq_of_mem_nodup l k v hnd h q hq hqk
      rw [if_pos (by simpa using hqk), ← hqk, ← hq2]
    · simp [hqk]
  rw [List.map_congr_left hfix]
  exact List.map_id l

theorem fixImportMapUrls_eq_rewriteImports (map : Json)
    (hnd : (listKeys map.objFields).Nodup) :
    fixImportMapUrls map = rewriteImports map := by
  cases hm : jget map "imports" with
  | none => simp [fixImportMapUrls, rewriteImports, hm]
  | some imp =>
    have hobj : ∃ fsm, map = Json.obj fsm := by
      cases map with
      | obj fs => exact ⟨fs, rfl⟩
      | null => simp [jget] at hm
      | bool b => simp [jget] at hm
      | num lit => simp [jget] at hm
      | str s2 => simp [jget] at hm
      | arr es => simp [jget] at hm
    rcases hobj with ⟨fsm, rfl⟩
    have hsetSelf : jsetKey (Json.obj fsm) "imports" imp = Json.obj fsm := by
      rw [jget] at hm
      rw [jsetKey, listSet_self_of_nodup fsm "imports" imp
        (by simpa [Json.objFields] using hnd) hm]
    cases imp with
    | null => simp [fixImportMapUrls, rewriteImports, hm, jsTruthy]
    | bool b =>
      cases b with
      | false => simp [fixImportMapUrls, rewriteImports, hm, jsTruthy]
      | true => simp [fixImportMapUrls, rewriteImports, hm, jsTruthy, hsetSelf]
    | str u =>
      by_cases hu : u = ""
      · subst hu
        simp [fixImportMapUrls, rewriteImports, hm, jsTruthy]
      · simp [fixImportMapUrls, rewriteImports, hm, jsTruthy, hu, hsetSelf]
    | num lit =>
      by_cases ht : jsTruthy (Json.num lit) = true
      · simp [fixImportMapUrls, rewriteImports, hm, ht, hsetSelf]
      · simp [fixImportMapUrls, rewriteImports, hm, ht]
    | arr es => simp [fixImportMapUrls, rewriteImports, hm, jsTruthy, hsetSelf]
    | obj fs =>
      have hentry : ∀ p : String × Json,
          (if jsTruthy p.2 then (p.1, fixImportValue p.2) else p) =
          (p.1, match p.2 with | Json.str u => Json.str (fixURL u) | v => v) := by
        intro p
        obtain ⟨k1, v1⟩ := p
        cases v1 with
        | str u =>
          by_cases hu : u = ""
          · subst hu
            simp [jsTruthy, fixImportValue, fixURL_empty]
          · simp [jsTruthy, hu, fixImportValue]
        | null => simp [jsTruthy]
        | bool b => cases b <;> simp [jsTruthy, fixImportValue]
        | num lit =>
          by_cases ht : jsTruthy (Json.num lit) = true <;> simp [ht, fixImportValue]
        | arr es => simp [jsTruthy, fixImportValue]
        | obj f2 => simp [jsTruthy, fixImportValue]
      have htr : jsTruthy (Json.obj fs) = true := rfl
      simp [fixImportMapUrls, rewriteImports, hm, htr, hentry]

/-- **C9.** For every import map passed to `setImportMap` (keys unique, as
in any JS object): every string URL value of its `imports` object is
rewritten by the fixed first-occurrence host substitution (`rewriteImports`
— a value not containing the public host is unchanged by it), the resulting
map is serialized as JSON text (pretty-printed in the original) and written
as the reserved import-map file's content — the file being created when
absent and keeping its other attributes when present — and nothing else in
the state changes. -/
theorem setImportMap_spec (s : StoreState) (map : Json)
    (hnd : (listKeys map.objFields).Nodup) :
    (∀ k, listGet (setImportMap map s).files k =
      (if k = importMapFile then
        some (match listGet s.files importMapFile with
          | some f => { f with code := jsonStringify (rewriteImports map) }
          | none => { filename := importMapFile,
                      code := jsonStringify (rewriteImports map) })
        else listGet s.files k)) ∧
    setImportMap map s = { s with files := (setImportMap map s).files } := by
  constructor
  · intro k
    cases him : listGet s.files importMapFile with
    | some f =>
      simp only [setImportMap, him, fixImportMapUrls_eq_rewriteImports map hnd,
        listGet_listSet]
    | none =>
      simp only [setImportMap, him, fixImportMapUrls_eq_rewriteImports map hnd,
        listGet_listSet]
  · cases him : listGet s.files importMapFile <;> simp [setImportMap, him]

/-- Witness for C9: applying a one-entry map holding the public host URL to
the default store. -/
theorem setImportMap_spec_witness :
    (listKeys (Json.obj
      [("imports", Json.obj [("vue", Json.str "https://sfc.vuejs/v.js")])]).objFields).Nodup ∧
    ((∀ k, listGet (setImportMap (Json.obj
        [("imports", Json.obj [("vue", Json.str "https://sfc.vuejs/v.js")])]) store0).files k =
      (if k = importMapFile then
        some (match listGet store0.files importMapFile with
          | some f => { f with code := jsonStringify (rewriteImports (Json.obj
              [("imports", Json.obj [("vue", Json.str "https://sfc.vuejs/v.js")])])) }
          | none => { filename := importMapFile,
                      code := jsonStringify (rewriteImports (Json.obj
              [("imports", Json.obj [("vue", Json.str "https://sfc.vuejs/v.js")])])) })
        else listGet store0.files k)) ∧
    setImportMap (Json.obj
        [("imports", Json.obj [("vue", Json.str "https://sfc.vuejs/v.js")])]) store0 =
      { store0 with files := (setImportMap (Json.obj
        [("imports", Json.obj [("vue", Json.str "https://sfc.vuejs/v.js")])]) store0).files }) :=
  ⟨by decide, setImportMap_spec store0 _ (by decide)⟩

/-! ## Results: serialization of the workspace (C8) -/

theorem jsStrictEq_eq_primitive (bv v : Json) :
    jsStrictEq bv v = (v.isPrimitive && decide (bv = v)) := by
  cases bv <;> cases v <;> simp [jsStrictEq, Json.isPrimitive] <;>
    (rename_i a b
     by_cases h : a = b <;> simp [h])

theorem pruneImportMap_eq_spec (b parsed : Json) :
    pruneImportMap b parsed = pruneImportMapSpec b parsed := by
  have hfilter : ∀ (BI : Json) (fs : List (String × Json)),
      fs.filter (keepEntry BI) =
      fs.filter (fun p => !(p.2.isPrimitive && decide (jget BI p.1 = some p.2))) := by
    intro BI fs
    apply List.filter_congr
    intro p _
    rw [keepEntry]
    cases hb : jget BI p.1 with
    | none => simp [hb]
    | some bv =>
      by_cases hv : bv = p.2 <;> simp [hb, hv, jsStrictEq_eq_primitive]
  cases him : jget parsed "imports" with
  | none => simp [pruneImportMap, pruneImportMapSpec, him]
  | some imp =>
    cases imp with
    | obj fs =>
      simp only [pruneImportMap, pruneImportMapSpec, him, Json.objFields]
      rw [hfilter]
    | null => simp [pruneImportMap, pruneImportMapSpec, him, Json.objFields]
    | bool bb => simp [pruneImportMap, pruneImportMapSpec, him, Json.objFields]
    | num lit => simp [pruneImportMap, pruneImportMapSpec, him, Json.objFields]
    | str u => simp [pruneImportMap, pruneImportMapSpec, him, Json.objFields]
    | arr es => simp [pruneImportMap, pruneImportMapSpec, him, Json.objFields]

/-- **C8 counterexample.** Two stores on which `serialize` returns no
encoded string, refuting the claim that `serialize()` returns an encoded
payload for every store state: one whose import-map file content is the
single character `{` — the original's unguarded `JSON.parse` throws — and
one whose content is the JSON text `null`, which parses fine but makes the
immediately following `parsed.imports` property access throw a
`TypeError`. -/
theorem serialize_throw_counterexample :
    ((listGet storeBadImportMap.files importMapFile).map File.code = some "\x7b" ∧
      serialize storeBadImportMap = none) ∧
    ((listGet storeNullImportMap.files importMapFile).map File.code = some "null" ∧
      jsonParse "null" = Except.ok Json.null ∧
      serialize storeNullImportMap = none) := by
  exact ⟨⟨by decide, by decide⟩, ⟨by decide, rfl, by decide⟩⟩

/-- **C8 (amended).** For every store state whose exported import-map
content is absent, or parses as JSON to a value other than `null`,
`serialize` returns `'#'` followed by the URL-safe encoding of the JSON
text of: all files exported under their `src/`-stripped names, the
import-map entry replaced per the claim's pruning (entries equal to the
built-in layer's value dropped, then an `imports` and a `scopes` left with
no keys dropped, and finally the import-map export itself dropped when the
map has no keys — `Object.keys` keys, so a nonempty string or array
content is kept), and the `_version` marker appended when a version is
selected.  When the content is present and does not parse, `serialize`
returns nothing (the unguarded `JSON.parse` throws); when it parses to
`null`, it likewise returns nothing (the next line's `parsed.imports`
access throws a `TypeError`). -/
theorem serialize_spec (s : StoreState) :
    (∀ im e, listGet (getFiles s) importMapFile = some im →
      jsonParse (jsonStrField im "code") = .error e → serialize s = none) ∧
    (∀ im, listGet (getFiles s) importMapFile = some im →
      jsonParse (jsonStrField im "code") = .ok Json.null → serialize s = none) ∧
    (∀ im parsed, listGet (getFiles s) importMapFile = some im →
      jsonParse (jsonStrField im "code") = .ok parsed → parsed ≠ Json.null →
      serialize s =
        some ("#" ++ utoa (jsonStringify (.obj (exportFieldsSpec s parsed))))) ∧
    (listGet (getFiles s) importMapFile = none →
      serialize s = some ("#" ++ utoa (jsonStringify
        (.obj (versionFieldsSpec s.vueVersion (getFiles s)))))) := by
  refine ⟨?_, ?_, ?_, ?_⟩
  · intro im e him hp
    simp only [serialize, him, hp]
  · intro im him hp
    simp [serialize, him, hp]
  · intro im parsed him hp hnull
    simp only [serialize, him, hp, if_neg hnull, exportFieldsSpec, pruneImportMap_eq_spec,
      versionFieldsSpec]
  · intro him
    simp only [serialize, him, versionFieldsSpec]

/-! ## Results: the main-file invariant (C4) -/

theorem mem_listKeys_iff {α : Type} (l : List (String × α)) (K : String) :
    K ∈ listKeys l ↔ ∃ p ∈ l, p.1 = K := by
  simp [listKeys, List.mem_map]

theorem setActive_frame (f : String) (s : StoreState) :
    (setActive f s).files = s.files ∧ (setActive f s).mainFile = s.mainFile := by
  unfold setActive
  split <;> exact ⟨rfl, rfl⟩

theorem setImportMap_mainFile (m : Json) (s : StoreState) :
    (setImportMap m s).mainFile = s.mainFile := rfl

theorem setImportMap_files_mem (m : Json) (s : StoreState) (k : String)
    (h : k ∈ listKeys s.files) : k ∈ listKeys (setImportMap m s).files := by
  unfold setImportMap
  cases listGet s.files importMapFile <;> exact mem_listKeys_listSet _ _ _ _ h

theorem getImportMap_snd (s : StoreState) :
    (getImportMap s).2.files = s.files ∧ (getImportMap s).2.mainFile = s.mainFile := by
  unfold getImportMap
  split <;> exact ⟨rfl, rfl⟩

theorem applyBuiltinImportMap_mainFile (s : StoreState) :
    (applyBuiltinImportMap s).mainFile = s.mainFile := by
  unfold applyBuiltinImportMap
  rw [setImportMap_mainFile]
  exact (getImportMap_snd s).2

theorem applyBuiltinImportMap_files_mem (s : StoreState) (k : String)
    (h : k ∈ listKeys s.files) : k ∈ listKeys (applyBuiltinImportMap s).files := by
  unfold applyBuiltinImportMap
  apply setImportMap_files_mem
  show k ∈ listKeys (getImportMap s).2.files
  rw [(getImportMap_snd s).1]
  exact h

theorem setFile_mem {files : List (String × File)} {k : String}
    (filename content : String) (hidden : Bool) (h : k ∈ listKeys files) :
    k ∈ listKeys (setFile files filename content hidden) :=
  mem_listKeys_listSet _ _ _ _ h

theorem setFile_mem_self (files : List (String × File)) (filename content : String)
    (hidden : Bool) :
    addSrcPrefix filename ∈ listKeys (setFile files filename content hidden) := by
  rw [← listGet_isSome_iff_mem, setFile, listGet_listSet, if_pos rfl]
  rfl

theorem setDefaultFile_mainFile (s : StoreState) :
    (setDefaultFile s).mainFile = s.mainFile := rfl

theorem setDefaultFile_files_mem (s : StoreState) (k : String)
    (h : k ∈ listKeys s.files) : k ∈ listKeys (setDefaultFile s).files := by
  unfold setDefaultFile
  exact setFile_mem _ _ _ (setFile_mem _ _ _ (setFile_mem _ _ _ (setFile_mem _ _ _ h)))

theorem setDefaultFile_welcome_mem (s : StoreState) :
    welcomeFile ∈ listKeys (setDefaultFile s).files := by
  unfold setDefaultFile
  apply setFile_mem
  apply setFile_mem
  rw [show welcomeFile = addSrcPrefix welcomeFile from by decide]
  exact setFile_mem_self _ _ _ _

theorem deserialize_mainFile_and_mem (str : String) (s : StoreState) :
    (deserialize str s).mainFile = s.mainFile ∧
    (∀ k, k ∈ listKeys s.files → k ∈ listKeys (deserialize str s).files) := by
  rw [deserialize]
  cases hp : jsonParse (atou (if strStartsWith str "#" then strDrop str 1 else str)) with
  | error e =>
    exact ⟨setDefaultFile_mainFile s, fun k hk => setDefaultFile_files_mem s k hk⟩
  | ok saved =>
    dsimp only
    generalize saved.objFields = fields
    induction fields generalizing s with
    | nil => exact ⟨rfl, fun k hk => hk⟩
    | cons x l ih =>
      rw [List.foldl_cons]
      by_cases hx : x.1 = "_version"
      · rw [if_pos hx]
        exact ih _
      · rw [if_neg hx]
        refine ⟨(ih _).1, fun k hk => (ih _).2 k ?_⟩
        exact setFile_mem _ _ _ hk

theorem init_mainFile_and_mem (s : StoreState) :
    (init s).mainFile = s.mainFile ∧
    (∀ k, k ∈ listKeys s.files → k ∈ listKeys (init s).files) := by
  unfold init
  split <;> exact ⟨rfl, fun k hk => by first | exact hk | exact mem_listKeys_listSet _ _ _ _ hk⟩

theorem rename_fold_mem (oldName newName : String) (renamed : File)
    (l acc : List (String × File)) (K : String)
    (h : K ∈ listKeys acc ∨ (∃ p ∈ l, p.1 = K ∧ K ≠ oldName) ∨
      (newName = K ∧ ∃ p ∈ l, p.1 = oldName)) :
    K ∈ listKeys (l.foldl (fun acc p =>
      if p.1 = oldName then listSet acc newName renamed
      else listSet acc p.1 p.2) acc) := by
  induction l generalizing acc with
  | nil =>
    rcases h with h | h | h
    · exact h
    · rcases h with ⟨p, hp, _⟩
      exact absurd hp (List.not_mem_nil p)
    · rcases h.2 with ⟨p, hp, _⟩
      exact absurd hp (List.not_mem_nil p)
  | cons x l ih =>
    rw [List.foldl_cons]
    rcases h with h | h | h
    · refine ih _ (Or.inl ?_)
      by_cases hx : x.1 = oldName
      · rw [if_pos hx]
        exact mem_listKeys_listSet _ _ _ _ h
      · rw [if_neg hx]
        exact mem_listKeys_listSet _ _ _ _ h
    · rcases h with ⟨p, hp, hpk, hko⟩
      rcases List.mem_cons.1 hp with hp | hp
      · subst hp
        have hx : ¬ (p.1 = oldName) := fun hc => hko (hpk ▸ hc)
        rw [if_neg hx]
        refine ih _ (Or.inl ?_)
        rw [← listGet_isSome_iff_mem, listGet_listSet, if_pos hpk.symm]
        rfl
      · exact ih _ (Or.inr (Or.inl ⟨p, hp, hpk, hko⟩))
    · rcases h with ⟨hnk, p, hp, hpo⟩
      rcases List.mem_cons.1 hp with hp | hp
      · subst hp
        rw [if_pos hpo]
        refine ih _ (Or.inl ?_)
        rw [← listGet_isSome_iff_mem, listGet_listSet, if_pos hnk.symm]
        rfl
      · exact ih _ (Or.inr (Or.inr ⟨hnk, p, hp, hpo⟩))

theorem renameFile_mainFile_mem (oldName newName : String) (s : StoreState)
    (h : s.mainFile ∈ listKeys s.files) :
    (renameFile oldName newName s).mainFile ∈
      listKeys (renameFile oldName newName s).files := by
  cases hy : listGet s.files oldName with
  | none => simpa [renameFile, hy] using h
  | some file =>
    by_cases hcond : (newName = "" ∨ oldName = newName)
    · simpa [renameFile, hy, if_pos hcond] using h
    · have hfiles : (renameFile oldName newName s).files =
          s.files.foldl (fun acc p =>
            if p.1 = oldName then listSet acc newName { file with filename := newName }
            else listSet acc p.1 p.2) [] := by
        by_cases h1 : s.mainFile = oldName <;>
          by_cases h2 : s.activeFilename = oldName <;>
            simp [renameFile, hy, if_neg hcond, h1, h2]
      have hmain : (renameFile oldName newName s).mainFile =
          (if s.mainFile = oldName then newName else s.mainFile) := by
        by_cases h1 : s.mainFile = oldName <;>
          by_cases h2 : s.activeFilename = oldName <;>
            simp [renameFile, hy, if_neg hcond, h1, h2]
      rw [hfiles, hmain]
      by_cases h1 : s.mainFile = oldName
      · rw [if_pos h1]
        apply rename_fold_mem
        refine Or.inr (Or.inr ⟨rfl, ?_⟩)
        rcases (mem_listKeys_iff _ _).1 (h1 ▸ h) with ⟨p, hp, hpk⟩
        exact ⟨p, hp, hpk⟩
      · rw [if_neg h1]
        apply rename_fold_mem
        rcases (mem_listKeys_iff _ _).1 h with ⟨p, hp, hpk⟩
        exact Or.inr (Or.inl ⟨p, hp, hpk, fun hc => h1 (hc ▸ hpk.symm ▸ rfl)⟩)

theorem addFile_mainFile_mem (arg : String ⊕ File) (s : StoreState)
    (h : s.mainFile ∈ listKeys s.files) :
    (addFile arg s).mainFile ∈ listKeys (addFile arg s).files := by
  have hgen : ∀ (file : File),
      (if (!file.hidden) = true
        then setActive file.filename { s with files := listSet s.files file.filename file }
        else { s with files := listSet s.files file.filename file }).mainFile ∈
      listKeys (if (!file.hidden) = true
        then setActive file.filename { s with files := listSet s.files file.filename file }
        else { s with files := listSet s.files file.filename file }).files := by
    intro file
    by_cases hh : (!file.hidden) = true
    · rw [if_pos hh, (setActive_frame _ _).1, (setActive_frame _ _).2]
      exact mem_listKeys_listSet _ _ _ _ h
    · rw [if_neg hh]
      exact mem_listKeys_listSet _ _ _ _ h
  cases arg with
  | inl name => exact hgen _
  | inr f => exact hgen _

theorem deleteFile_mainFile_mem (filename : String) (confirmed : Bool) (s : StoreState)
    (hg : confirmed = false ∨ filename ≠ s.mainFile)
    (h : s.mainFile ∈ listKeys s.files) :
    (deleteFile filename confirmed s).mainFile ∈
      listKeys (deleteFile filename confirmed s).files := by
  cases confirmed with
  | false => simpa [deleteFile] using h
  | true =>
    have hne : filename ≠ s.mainFile := by
      rcases hg with hg | hg
      · exact absurd hg (by simp)
      · exact hg
    have hmain : (deleteFile filename true s).mainFile = s.mainFile := by
      by_cases h2 : s.activeFilename = filename <;> simp [deleteFile, h2]
    have hfiles : (deleteFile filename true s).files = listDelete s.files filename := by
      by_cases h2 : s.activeFilename = filename <;> simp [deleteFile, h2]
    rw [hmain, hfiles, ← listGet_isSome_iff_mem, listGet_listDelete,
      if_neg (fun hc => hne hc.symm)]
    rw [listGet_isSome_iff_mem]
    exact h

theorem setFile_fold_mem (nf : List (String × String)) (acc : List (String × File))
    (K : String)
    (h : K ∈ listKeys acc ∨ ∃ p ∈ nf, addSrcPrefix p.1 = K) :
    K ∈ listKeys (nf.foldl (fun a p => setFile a p.1 p.2) acc) := by
  induction nf generalizing acc with
  | nil =>
    rcases h with h | h
    · exact h
    · rcases h with ⟨p, hp, _⟩
      exact absurd hp (List.not_mem_nil p)
  | cons x l ih =>
    rw [List.foldl_cons]
    rcases h with h | h
    · exact ih _ (Or.inl (setFile_mem _ _ _ h))
    · rcases h with ⟨p, hp, hpk⟩
      rcases List.mem_cons.1 hp with hp | hp
      · subst hp
        exact ih _ (Or.inl (hpk ▸ setFile_mem_self _ _ _ _))
      · exact ih _ (Or.inr ⟨p, hp, hpk⟩)

theorem setFiles_mainFile_mem (nf : List (String × String)) (marg : Option String)
    (diags : List String) (s : StoreState) :
    (setFiles nf marg diags s).mainFile ∈ listKeys (setFiles nf marg diags s).files := by
  unfold setFiles
  rw [(setActive_frame _ _).1, (setActive_frame _ _).2, applyBuiltinImportMap_mainFile]
  apply applyBuiltinImportMap_files_mem
  show addSrcPrefix (marg.getD s.mainFile) ∈ _
  apply setFile_fold_mem
  cases hl : listGet nf (addSrcPrefix (marg.getD s.mainFile)) with
  | none =>
    refine Or.inl ?_
    have h1 := setFile_mem_self ([] : List (String × File))
      (addSrcPrefix (marg.getD s.mainFile)) s.template.welcome false
    rwa [addSrcPrefix_idem] at h1
  | some c =>
    by_cases hc : c = ""
    · subst hc
      simp only [eq_self_iff_true, if_true]
      refine Or.inl ?_
      have h1 := setFile_mem_self ([] : List (String × File))
        (addSrcPrefix (marg.getD s.mainFile)) s.template.welcome false
      rwa [addSrcPrefix_idem] at h1
    · simp only [if_neg hc]
      refine Or.inr ?_
      rcases Option.map_eq_some'.1 hl with ⟨p, hfind, _⟩
      exact ⟨p, List.mem_of_find?_eq_some hfind,
        by rw [show p.1 = addSrcPrefix (marg.getD s.mainFile) from by
              simpa using List.find?_some hfind]
           exact addSrcPrefix_idem _⟩

theorem useStore_default_mainFile_mem (b : Json) (t : Template) (c : String) :
    (useStore b t c none).mainFile ∈ listKeys (useStore b t c none).files := by
  unfold useStore
  rw [applyBuiltinImportMap_mainFile]
  apply applyBuiltinImportMap_files_mem
  set s0 : StoreState := {
    files := [], activeFilename := "", activeConfigFilename := viteConfigFile,
    mainFile := welcomeFile, builtinImportMap := b, importMap := .obj [],
    errors := [], vueVersion := none, template := t,
    tsMacroConfigCode := c } with hs0
  have hw : welcomeFile ∈ listKeys (setDefaultFile s0).files :=
    setDefaultFile_welcome_mem s0
  have hcondtrue : (listGet (setDefaultFile s0).files (setDefaultFile s0).mainFile).isSome = true := by
    rw [setDefaultFile_mainFile]
    show (listGet (setDefaultFile s0).files welcomeFile).isSome = true
    rw [listGet_isSome_iff_mem]
    exact hw
  rw [if_pos hcondtrue]
  rw [setDefaultFile_mainFile]
  exact hw

/-- **C4 counterexample.** Deleting the main file itself (with the
confirmation prompt answering yes) is a public operation reaching a state
whose `mainFile` is no longer a key of the file mapping: `deleteFile` never
checks the main-file designation. -/
theorem mainFile_invariant_counterexample :
    Reachable (deleteFile welcomeFile true store0) ∧
    (deleteFile welcomeFile true store0).mainFile ∉
      listKeys (deleteFile welcomeFile true store0).files := by
  constructor
  · exact Reachable.deleteStep _ _ _
      (Reachable.base defaultBuiltinImportMap defaultTemplate defaultTsMacroConfigCode)
  · decide

/-- **C4 (amended).** In every state reachable through the store's public
operations — `addFile`, `deleteFile`, `renameFile`, `setFiles`,
`deserialize`, `init` — from a default-constructed store, `mainFile`
resolves to an existing file, provided a confirmed `deleteFile` of the main
file itself is never performed (that one operation, exhibited by the
counterexample, breaks the invariant). -/
theorem mainFile_invariant (s : StoreState) (hr : SafeReachable s) :
    s.mainFile ∈ listKeys s.files := by
  induction hr with
  | base b t c => exact useStore_default_mainFile_mem b t c
  | addStep s arg _ ih => exact addFile_mainFile_mem arg s ih
  | deleteStep s filename confirmed hg _ ih =>
    exact deleteFile_mainFile_mem filename confirmed s hg ih
  | renameStep s o n _ ih => exact renameFile_mainFile_mem o n s ih
  | setFilesStep s nf m d _ _ => exact setFiles_mainFile_mem nf m d s
  | deserializeStep s str _ ih =>
    rw [(deserialize_mainFile_and_mem str s).1]
    exact (deserialize_mainFile_and_mem str s).2 _ ih
  | initStep s _ ih =>
    rw [(init_mainFile_and_mem s).1]
    exact (init_mainFile_and_mem s).2 _ ih

/-- Witness for the amended C4 at a concrete state: the default store. -/
theorem mainFile_invariant_witness :
    store0.mainFile ∈ listKeys store0.files :=
  mainFile_invariant store0
    (SafeReachable.base defaultBuiltinImportMap defaultTemplate defaultTsMacroConfigCode)

/-! ## Results: the serialize/deserialize round trip (C1) -/

theorem skipWs_cons {c : Char} (l : List Char) (h : isWsChar c = false) :
    skipWs (c :: l) = c :: l := by
  simp [skipWs, h]

theorem escString_cons (c : Char) (cs : List Char) :
    escString (c :: cs) = escChar c ++ escString cs := rfl

theorem decStrBody_quote (tail : List Char) :
    decStrBody ('"' :: tail) = some ([], tail) := by
  rw [decStrBody.eq_def]
  dsimp only
  rw [if_pos (rfl : ('"' : Char) = '"')]

theorem decStrBody_escQuote (X : List Char) :
    decStrBody ('\\' :: '"' :: X) = (decStrBody X).map (fun p => ('"' :: p.1, p.2)) := rfl

theorem decStrBody_escBackslash (X : List Char) :
    decStrBody ('\\' :: '\\' :: X) = (decStrBody X).map (fun p => ('\\' :: p.1, p.2)) := rfl

theorem decStrBody_escB (X : List Char) :
    decStrBody ('\\' :: 'b' :: X) =
      (decStrBody X).map (fun p => (Char.ofNat 8 :: p.1, p.2)) := rfl

theorem decStrBody_escT (X : List Char) :
    decStrBody ('\\' :: 't' :: X) =
      (decStrBody X).map (fun p => (Char.ofNat 9 :: p.1, p.2)) := rfl

theorem decStrBody_escN (X : List Char) :
    decStrBody ('\\' :: 'n' :: X) =
      (decStrBody X).map (fun p => (Char.ofNat 10 :: p.1, p.2)) := rfl

theorem decStrBody_escF (X : List Char) :
    decStrBody ('\\' :: 'f' :: X) =
      (decStrBody X).map (fun p => (Char.ofNat 12 :: p.1, p.2)) := rfl

theorem decStrBody_escR (X : List Char) :
    decStrBody ('\\' :: 'r' :: X) =
      (decStrBody X).map (fun p => (Char.ofNat 13 :: p.1, p.2)) := rfl

theorem decStrBody_escU (a b c d : Char) (X : List Char) :
    decStrBody ('\\' :: 'u' :: a :: b :: c :: d :: X) =
      (if isHexDigitChar a ∧ isHexDigitChar b ∧ isHexDigitChar c ∧ isHexDigitChar d then
        (decStrBody X).map (fun p =>
          (Char.ofNat (((hexVal a * 16 + hexVal b) * 16 + hexVal c) * 16 + hexVal d)
            :: p.1, p.2))
      else none) := rfl

theorem decStrBody_other (c : Char) (X : List Char) (h1 : ¬ (c = '"'))
    (h2 : ¬ (c = '\\')) (h3 : ¬ (c.toNat < 32)) :
    decStrBody (c :: X) = (decStrBody X).map (fun p => (c :: p.1, p.2)) := by
  rw [decStrBody.eq_def]
  dsimp only
  rw [if_neg h1, if_neg h2, if_neg h3]

theorem hexDigit_facts :
    ∀ m, m < 16 → hexVal (hexDigit m) = m ∧ isHexDigitChar (hexDigit m) = true := by
  decide

theorem decStrBody_esc (cs : List Char) (tail : List Char) :
    decStrBody (escString cs ++ ('"' :: tail)) = some (cs, tail) := by
  induction cs with
  | nil =>
    show decStrBody ('"' :: tail) = _
    exact decStrBody_quote tail
  | cons c cs ih =>
    rw [escString_cons]
    by_cases h : c = '"' ∨ c = '\\'
    · rcases h with h | h
      · subst h
        rw [show escChar '"' = ['\\', '"'] from by decide]
        simp only [List.cons_append, List.nil_append]
        rw [decStrBody_escQuote, ih]
        rfl
      · subst h
        rw [show escChar '\\' = ['\\', '\\'] from by decide]
        simp only [List.cons_append, List.nil_append]
        rw [decStrBody_escBackslash, ih]
        rfl
    · have h1 : ¬ (c = '"') := fun hc => h (Or.inl hc)
      have h2 : ¬ (c = '\\') := fun hc => h (Or.inr hc)
      by_cases h8 : c = Char.ofNat 8
      · subst h8
        rw [show escChar (Char.ofNat 8) = ['\\', 'b'] from by decide]
        simp only [List.cons_append, List.nil_append]
        rw [decStrBody_escB, ih]
        rfl
      · by_cases h9 : c = Char.ofNat 9
        · subst h9
          rw [show escChar (Char.ofNat 9) = ['\\', 't'] from by decide]
          simp only [List.cons_append, List.nil_append]
          rw [decStrBody_escT, ih]
          rfl
        · by_cases h10 : c = Char.ofNat 10
          · subst h10
            rw [show escChar (Char.ofNat 10) = ['\\', 'n'] from by decide]
            simp only [List.cons_append, List.nil_append]
            rw [decStrBody_escN, ih]
            rfl
          · by_cases h12 : c = Char.ofNat 12
            · subst h12
              rw [show escChar (Char.ofNat 12) = ['\\', 'f'] from by decide]
              simp only [List.cons_append, List.nil_append]
              rw [decStrBody_escF, ih]
              rfl
            · by_cases h13 : c = Char.ofNat 13
              · subst h13
                rw [show escChar (Char.ofNat 13) = ['\\', 'r'] from by decide]
                simp only [List.cons_append, List.nil_append]
                rw [decStrBody_escR, ih]
                rfl
              · by_cases hctl : c.toNat < 32
                · have hesc : escChar c = ['\\', 'u', '0', '0',
                      hexDigit (c.toNat / 16), hexDigit (c.toNat % 16)] := by
                    rw [escChar, if_neg h, if_neg h8, if_neg h9, if_neg h10,
                      if_neg h12, if_neg h13, if_pos hctl]
                  rw [hesc]
                  simp only [List.cons_append, List.nil_append]
                  have hd1 := hexDigit_facts (c.toNat / 16) (by omega)
                  have hd2 := hexDigit_facts (c.toNat % 16) (by omega)
                  rw [decStrBody_escU,
                    if_pos ⟨by decide, by decide, hd1.2, hd2.2⟩, ih]
                  have hv : (((hexVal '0' * 16 + hexVal '0') * 16 +
                      hexVal (hexDigit (c.toNat / 16))) * 16 +
                      hexVal (hexDigit (c.toNat % 16))) = c.toNat := by
                    rw [hd1.1, hd2.1, show hexVal '0' = 0 from rfl]
                    omega
                  rw [hv, Char.ofNat_toNat]
                  rfl
                · have hesc : escChar c = [c] := by
                    rw [escChar, if_neg h, if_neg h8, if_neg h9, if_neg h10,
                      if_neg h12, if_neg h13, if_neg hctl]
                  rw [hesc]
                  simp only [List.cons_append, List.nil_append]
                  rw [decStrBody_other c _ h1 h2 hctl, ih]
                  rfl

theorem numFreeElems_cons (x : Json) (r : List Json) :
    numFreeElems (x :: r) = (numFree x && numFreeElems r) := rfl

theorem numFreeFields_cons (k : String) (v : Json) (r : List (String × Json)) :
    numFreeFields ((k, v) :: r) = (numFree v && numFreeFields r) := rfl

theorem encJson_head (j : Json) (hnf : numFree j = true) : ∃ c l, encJson j = c :: l ∧
    isWsChar c = false ∧ c ≠ ']' := by
  cases j with
  | null => exact ⟨'n', _, rfl, by decide, by decide⟩
  | bool b =>
    cases b with
    | false => exact ⟨'f', _, rfl, by decide, by decide⟩
    | true => exact ⟨'t', _, rfl, by decide, by decide⟩
  | num lit => simp [numFree] at hnf
  | str s => exact ⟨'"', _, rfl, by decide, by decide⟩
  | arr es => exact ⟨'[', _, rfl, by decide, by decide⟩
  | obj fs => exact ⟨'{', _, rfl, by decide, by decide⟩

theorem decVal_quote (fuel : Nat) (rest : List Char) :
    decVal (fuel+1) ('"' :: rest) =
      (match decStrBody rest with
       | some (body, r) => .ok (.str ⟨body⟩, r)
       | none => .error "unterminated string") := rfl

theorem decVal_bracket (fuel : Nat) (rest : List Char) :
    decVal (fuel+1) ('[' :: rest) =
      (match skipWs rest with
      | d :: r => if d = ']' then .ok (.arr [], r) else decElems fuel rest []
      | [] => .error "unterminated array") := rfl

theorem decVal_brace (fuel : Nat) (rest : List Char) :
    decVal (fuel+1) ('{' :: rest) =
      (match skipWs rest with
      | d :: r => if d = '}' then .ok (.obj [], r) else decFields fuel rest []
      | [] => .error "unterminated object") := rfl

theorem decElems_succ (fuel : Nat) (input : List Char) (acc : List Json) :
    decElems (fuel+1) input acc =
      (match decVal fuel input with
      | .error e => .error e
      | .ok (v, rest) =>
        match skipWs rest with
        | [] => .error "unterminated array"
        | d :: r =>
          if d = ',' then decElems fuel r (acc ++ [v])
          else if d = ']' then .ok (.arr (acc ++ [v]), r)
          else .error "expected comma or closing bracket") := rfl

theorem decFields_succ (fuel : Nat) (input : List Char) (acc : List (String × Json)) :
    decFields (fuel+1) input acc =
      (match skipWs input with
      | [] => .error "unterminated object"
      | c :: rest =>
        if c = '"' then
          match decStrBody rest with
          | none => .error "unterminated string"
          | some (key, r1) =>
            match skipWs r1 with
            | [] => .error "expected colon"
            | d :: r2 =>
              if d = ':' then
                match decVal fuel r2 with
                | .error e => .error e
                | .ok (v, r3) =>
                  match skipWs r3 with
                  | [] => .error "unterminated object"
                  | e2 :: r4 =>
                    if e2 = ',' then decFields fuel r4 (acc ++ [(⟨key⟩, v)])
                    else if e2 = '}' then .ok (.obj (acc ++ [(⟨key⟩, v)]), r4)
                    else .error "expected comma or closing brace"
              else .error "expected colon"
        else .error "expected a key") := rfl

theorem dec_enc (fuel : Nat) :
    (∀ j tail, numFree j = true → (encJson j).length + 1 ≤ fuel →
      decVal fuel (encJson j ++ tail) = .ok (j, tail)) ∧
    (∀ x rest tail acc, numFreeElems (x :: rest) = true →
      (encElems (x :: rest)).length + 2 ≤ fuel →
      decElems fuel (encElems (x :: rest) ++ ']' :: tail) acc =
        .ok (.arr (acc ++ x :: rest), tail)) ∧
    (∀ k v rest tail acc, numFreeFields ((k, v) :: rest) = true →
      (encFields ((k, v) :: rest)).length + 2 ≤ fuel →
      decFields fuel (encFields ((k, v) :: rest) ++ '}' :: tail) acc =
        .ok (.obj (acc ++ (k, v) :: rest), tail)) := by
  induction fuel with
  | zero =>
    refine ⟨fun j tail hnf h => ?_, fun x rest tail acc hnf h => ?_,
      fun k v rest tail acc hnf h => ?_⟩ <;> omega
  | succ fuel ih =>
    obtain ⟨ihV, ihE, ihF⟩ := ih
    refine ⟨fun j tail hnf h => ?_, fun x rest tail acc hnf h => ?_,
      fun k v rest tail acc hnf h => ?_⟩
    · -- decVal on an encoded value
      cases j with
      | null => rfl
      | bool b => cases b <;> rfl
      | num lit => simp [numFree] at hnf
      | str s =>
        have hshape : encJson (Json.str s) ++ tail =
            '"' :: (escString s.data ++ ('"' :: tail)) := by
          simp [encJson, encStr]
        rw [hshape, decVal_quote, decStrBody_esc]
      | arr es =>
        cases es with
        | nil => rfl
        | cons x r =>
          have hnf2 : numFreeElems (x :: r) = true := by simpa [numFree] using hnf
          have hnfx : numFree x = true := by
            have h2 := hnf2
            rw [numFreeElems_cons, Bool.and_eq_true] at h2
            exact h2.1
          obtain ⟨c0, l0, hx, hws, hne⟩ := encJson_head x hnfx
          have hshape : encJson (.arr (x :: r)) ++ tail =
              '[' :: (encElems (x :: r) ++ (']' :: tail)) := by
            simp [encJson]
          have hrest : ∃ l', encElems (x :: r) ++ (']' :: tail) = c0 :: l' := by
            cases r with
            | nil => exact ⟨l0 ++ ']' :: tail, by simp [encElems, hx]⟩
            | cons y r2 =>
              refine ⟨l0 ++ (',' :: (encElems (y :: r2) ++ (']' :: tail))), ?_⟩
              simp [encElems, hx]
          obtain ⟨l', hl'⟩ := hrest
          rw [hshape, decVal_bracket]
          rw [show skipWs (encElems (x :: r) ++ (']' :: tail)) = c0 :: l' from by
            rw [hl']; exact skipWs_cons _ hws]
          dsimp only
          rw [if_neg hne]
          have hlen : (encElems (x :: r)).length + 2 ≤ fuel := by
            have : (encJson (Json.arr (x :: r))).length = (encElems (x :: r)).length + 2 := by
              simp [encJson]
            omega
          simpa using ihE x r tail [] hnf2 hlen
      | obj fs =>
        cases fs with
        | nil => rfl
        | cons p r =>
          obtain ⟨k, v⟩ := p
          have hnf2 : numFreeFields ((k, v) :: r) = true := by simpa [numFree] using hnf
          have hshape : encJson (.obj ((k, v) :: r)) ++ tail =
              '{' :: (encFields ((k, v) :: r) ++ ('}' :: tail)) := by
            simp [encJson]
          have hrest : ∃ l', encFields ((k, v) :: r) ++ ('}' :: tail) = '"' :: l' := by
            cases r with
            | nil =>
              refine ⟨escString k.data ++ ('"' :: (':' :: (encJson v ++ ('}' :: tail)))), ?_⟩
              simp [encFields, encStr]
            | cons q r2 =>
              refine ⟨escString k.data ++ ('"' :: (':' :: (encJson v ++
                (',' :: (encFields (q :: r2) ++ ('}' :: tail)))))), ?_⟩
              simp [encFields, encStr]
          obtain ⟨l', hl'⟩ := hrest
          rw [hshape, decVal_brace]
          rw [show skipWs (encFields ((k, v) :: r) ++ ('}' :: tail)) = '"' :: l' from by
            rw [hl']; exact skipWs_cons _ (by decide)]
          dsimp only
          rw [if_neg (by decide : ¬ (('"' : Char) = '}'))]
          have hlen : (encFields ((k, v) :: r)).length + 2 ≤ fuel := by
            have : (encJson (Json.obj ((k, v) :: r))).length =
                (encFields ((k, v) :: r)).length + 2 := by
              simp [encJson]
            omega
          simpa using ihF k v r tail [] hnf2 hlen
    · -- decElems on encoded elements
      cases rest with
      | nil =>
        have hnfx : numFree x = true := by
          have h2 := hnf
          rw [numFreeElems_cons, Bool.and_eq_true] at h2
          exact h2.1
        have hlen : (encJson x).length + 1 ≤ fuel := by
          have : (encElems [x]).length = (encJson x).length := by simp [encElems]
          omega
        rw [show encElems [x] ++ (']' :: tail) = encJson x ++ (']' :: tail) from by
          simp [encElems]]
        rw [decElems_succ, ihV x (']' :: tail) hnfx hlen]
        dsimp only
        rw [skipWs_cons _ (by decide)]
        dsimp only
        rw [if_neg (by decide : ¬ ((']' : Char) = ',')), if_pos (rfl : (']' : Char) = ']')]
      | cons y r2 =>
        have hsplit : numFree x = true ∧ numFreeElems (y :: r2) = true := by
          have h2 := hnf
          rw [numFreeElems_cons, Bool.and_eq_true] at h2
          exact h2
        have hshape : encElems (x :: y :: r2) ++ (']' :: tail) =
            encJson x ++ (',' :: (encElems (y :: r2) ++ (']' :: tail))) := by
          simp [encElems]
        have hlen : (encElems (x :: y :: r2)).length =
            (encJson x).length + 1 + (encElems (y :: r2)).length := by
          simp [encElems]
          omega
        have hx1 : 1 ≤ (encJson x).length := by
          obtain ⟨c0, l0, hx, _, _⟩ := encJson_head x hsplit.1
          simp [hx]
        have h1 : (encJson x).length + 1 ≤ fuel := by omega
        have h2 : (encElems (y :: r2)).length + 2 ≤ fuel := by omega
        rw [hshape, decElems_succ, ihV x _ hsplit.1 h1]
        dsimp only
        rw [skipWs_cons _ (by decide)]
        dsimp only
        rw [if_pos (rfl : (',' : Char) = ','), ihE y r2 tail (acc ++ [x]) hsplit.2 h2]
        simp
    · -- decFields on encoded fields
      have hsplit : numFree v = true ∧ numFreeFields rest = true := by
        have h2 := hnf
        rw [numFreeFields_cons, Bool.and_eq_true] at h2
        exact h2
      cases rest with
      | nil =>
        have hkey : encFields [(k, v)] ++ ('}' :: tail) =
            '"' :: (escString k.data ++ ('"' :: (':' :: (encJson v ++ ('}' :: tail))))) := by
          simp [encFields, encStr]
        have hlenf : (encFields [(k, v)]).length =
            (escString k.data).length + 3 + (encJson v).length := by
          simp [encFields, encStr]
          omega
        have hv : (encJson v).length + 1 ≤ fuel := by omega
        rw [hkey, decFields_succ, skipWs_cons _ (by decide)]
        dsimp only
        rw [if_pos (rfl : ('"' : Char) = '"'), decStrBody_esc]
        dsimp only
        rw [skipWs_cons _ (by decide)]
        dsimp only
        rw [if_pos (rfl : (':' : Char) = ':'), ihV v _ hsplit.1 hv]
        dsimp only
        rw [skipWs_cons _ (by decide)]
        dsimp only
        rw [if_neg (by decide : ¬ (('}' : Char) = ',')), if_pos (rfl : ('}' : Char) = '}')]
      | cons q r2 =>
        obtain ⟨k2, v2⟩ := q
        have hkey : encFields ((k, v) :: (k2, v2) :: r2) ++ ('}' :: tail) =
            '"' :: (escString k.data ++ ('"' :: (':' :: (encJson v ++
              (',' :: (encFields ((k2, v2) :: r2) ++ ('}' :: tail))))))) := by
          simp [encFields, encStr]
        have hlenf : (encFields ((k, v) :: (k2, v2) :: r2)).length =
            (escString k.data).length + 3 + (encJson v).length +
              ((encFields ((k2, v2) :: r2)).length + 1) := by
          simp [encFields, encStr]
          omega
        have hv : (encJson v).length + 1 ≤ fuel := by omega
        have h2 : (encFields ((k2, v2) :: r2)).length + 2 ≤ fuel := by omega
        rw [hkey, decFields_succ, skipWs_cons _ (by decide)]
        dsimp only
        rw [if_pos (rfl : ('"' : Char) = '"'), decStrBody_esc]
        dsimp only
        rw [skipWs_cons _ (by decide)]
        dsimp only
        rw [if_pos (rfl : (':' : Char) = ':'), ihV v _ hsplit.1 hv]
        dsimp only
        rw [skipWs_cons _ (by decide)]
        dsimp only
        rw [if_pos (rfl : (',' : Char) = ','), ihF k2 v2 r2 tail _ hsplit.2 h2]
        simp

theorem jsonParse_stringify (j : Json) (hnf : numFree j = true) :
    jsonParse (jsonStringify j) = .ok j := by
  have h := (dec_enc ((encJson j).length + 1)).1 j [] hnf (le_refl _)
  rw [List.append_nil] at h
  show (match decVal ((encJson j).length + 1) (encJson j) with
    | Except.error e => Except.error e
    | Except.ok (v, rest) =>
      match skipWs rest with
      | [] => Except.ok v
      | _ => Except.error "trailing input") = Except.ok j
  rw [h]
  rfl

theorem strStartsWith_hash_append (s : String) : strStartsWith ("#" ++ s) "#" = true := by
  simp [strStartsWith, String.data_append, List.isPrefixOf_iff_prefix]

theorem strDrop_hash_append (s : String) : strDrop ("#" ++ s) 1 = s := by
  simp [strDrop, String.data_append]

theorem fold_restore_files (L : List (String × Json)) (a : StoreState) :
    (L.foldl restoreEntry a).files = L.foldl restoreFileEntry a.files := by
  induction L generalizing a with
  | nil => rfl
  | cons p L ih =>
    rw [List.foldl_cons, List.foldl_cons, ih]
    by_cases h : p.1 = "_version" <;> simp [restoreEntry, restoreFileEntry, h]

theorem fold_restore_mainFile (L : List (String × Json)) (a : StoreState) :
    (L.foldl restoreEntry a).mainFile = a.mainFile := by
  induction L generalizing a with
  | nil => rfl
  | cons p L ih =>
    rw [List.foldl_cons, ih]
    by_cases h : p.1 = "_version" <;> simp [restoreEntry, h]

theorem fold_restore_vueVersion_miss (L : List (String × Json)) (a : StoreState)
    (h : "_version" ∉ L.map (fun p => p.1)) :
    (L.foldl restoreEntry a).vueVersion = a.vueVersion := by
  induction L generalizing a with
  | nil => rfl
  | cons p L ih =>
    rw [List.map_cons, List.mem_cons] at h
    push_neg at h
    rw [List.foldl_cons, ih _ h.2]
    rw [restoreEntry, if_neg (fun hc => h.1 hc.symm)]

theorem fold_restore_vueVersion_last (L : List (String × Json)) (a : StoreState)
    (v : String) :
    ((L ++ [("_version", Json.str v)]).foldl restoreEntry a).vueVersion = some v := by
  rw [List.foldl_append]
  rfl

theorem deserialize_hash_stringify (fields : List (String × Json)) (b : StoreState)
    (hnf : numFree (Json.obj fields) = true) :
    deserialize ("#" ++ utoa (jsonStringify (Json.obj fields))) b =
      fields.foldl restoreEntry b := by
  have h1 : strStartsWith ("#" ++ utoa (jsonStringify (Json.obj fields))) "#" = true :=
    strStartsWith_hash_append _
  have h2 : strDrop ("#" ++ utoa (jsonStringify (Json.obj fields))) 1 =
      utoa (jsonStringify (Json.obj fields)) := strDrop_hash_append _
  have htext : (if strStartsWith ("#" ++ utoa (jsonStringify (Json.obj fields))) "#" = true
      then strDrop ("#" ++ utoa (jsonStringify (Json.obj fields))) 1
      else ("#" ++ utoa (jsonStringify (Json.obj fields)))) =
        jsonStringify (Json.obj fields) := by
    rw [h1, if_pos rfl, h2]
    rfl
  simp only [deserialize, htext, atou, jsonParse_stringify _ hnf, Json.objFields]
  rfl

theorem listGet_fold_restore_miss (L : List (String × Json))
    (a : List (String × File)) (f : String)
    (h : ∀ p ∈ L, p.1 ≠ "_version" → addSrcPrefix p.1 ≠ f) :
    listGet (L.foldl restoreFileEntry a) f = listGet a f := by
  induction L generalizing a with
  | nil => rfl
  | cons p L ih =>
    rw [List.foldl_cons, ih _ (fun q hq => h q (List.mem_cons_of_mem _ hq))]
    by_cases hv : p.1 = "_version"
    · rw [restoreFileEntry, if_pos hv]
    · rw [restoreFileEntry, if_neg hv, setFile, listGet_listSet,
        if_neg (fun hc => h p (List.mem_cons_self _ _) hv hc.symm)]

theorem listGet_fold_restore_hit (L1 L2 : List (String × Json))
    (a : List (String × File)) (f k : String) (v : Json)
    (hk : k ≠ "_version") (hkey : addSrcPrefix k = f)
    (h2 : ∀ p ∈ L2, p.1 ≠ "_version" → addSrcPrefix p.1 ≠ f) :
    listGet ((L1 ++ (k, v) :: L2).foldl restoreFileEntry a) f =
      some { filename := f, code := jsonStrField v "code",
             hidden := jsonTruthyField v "hidden" } := by
  rw [List.foldl_append, List.foldl_cons, listGet_fold_restore_miss _ _ _ h2]
  rw [restoreFileEntry, if_neg hk, setFile, hkey, listGet_listSet, if_pos rfl]

theorem mem_listSet {α : Type} (l : List (String × α)) (k : String) (v : α)
    (p : String × α) (h : p ∈ listSet l k v) : p ∈ l ∨ p = (k, v) := by
  rw [listSet] at h
  by_cases hany : l.any (fun q => q.1 == k)
  · rw [if_pos hany] at h
    rcases List.mem_map.1 h with ⟨q, hq, hqe⟩
    by_cases hqk : q.1 = k
    · right
      rw [← hqe, if_pos (by simpa using hqk)]
    · left
      rwa [← hqe, if_neg (by simpa using hqk)]
  · rw [if_neg hany] at h
    rcases List.mem_append.1 h with h | h
    · exact Or.inl h
    · exact Or.inr (by simpa using h)

theorem mem_listSet_self {α : Type} (l : List (String × α)) (k : String) (v : α) :
    (k, v) ∈ listSet l k v := by
  rw [listSet]
  by_cases hany : l.any (fun q => q.1 == k)
  · rw [if_pos hany]
    rcases List.any_eq_true.1 hany with ⟨q, hq, hqk⟩
    refine List.mem_map.2 ⟨q, hq, ?_⟩
    rw [if_pos hqk]
  · rw [if_neg hany]
    exact List.mem_append_right _ (by simp)

theorem mem_listSet_of_ne {α : Type} (l : List (String × α)) (k : String) (v : α)
    (p : String × α) (hp : p ∈ l) (hne : p.1 ≠ k) : p ∈ listSet l k v := by
  rw [listSet]
  by_cases hany : l.any (fun q => q.1 == k)
  · rw [if_pos hany]
    refine List.mem_map.2 ⟨p, hp, ?_⟩
    rw [if_neg (by simpa using hne)]
  · rw [if_neg hany]
    exact List.mem_append_left _ hp

theorem mem_listDelete {α : Type} (l : List (String × α)) (k : String)
    (p : String × α) (h : p ∈ listDelete l k) : p ∈ l :=
  List.mem_of_mem_filter h

theorem mem_listDelete_of_ne {α : Type} (l : List (String × α)) (k : String)
    (p : String × α) (hp : p ∈ l) (hne : p.1 ≠ k) : p ∈ listDelete l k := by
  rw [listDelete]
  exact List.mem_filter.2 ⟨hp, by simpa using hne⟩

theorem nodup_keys_listSet {α : Type} (l : List (String × α)) (k : String) (v : α)
    (h : (listKeys l).Nodup) : (listKeys (listSet l k v)).Nodup := by
  rw [listKeys_listSet]
  by_cases hany : l.any (fun q => q.1 == k)
  · rwa [if_pos hany]
  · rw [if_neg hany]
    refine List.Nodup.append h (List.nodup_singleton k) ?_
    intro x hx hx2
    rw [List.mem_singleton] at hx2
    subst hx2
    rcases List.mem_map.1 hx with ⟨q, hq, hqk⟩
    exact (List.any_eq_true.2 ⟨q, hq, by simpa using hqk⟩) |> fun hc => hany hc

theorem nodup_keys_listDelete {α : Type} (l : List (String × α)) (k : String)
    (h : (listKeys l).Nodup) : (listKeys (listDelete l k)).Nodup := by
  rw [listDelete, listKeys]
  exact h.sublist ((List.filter_sublist l).map _)

theorem foldl_listSet_of_fresh2 {α β : Type} (g : (String × α) → (String × β))
    (l : List (String × α)) (acc : List (String × β))
    (hdisj : ∀ p ∈ l, (g p).1 ∉ listKeys acc)
    (hnd : ((l.map g).map Prod.fst).Nodup) :
    l.foldl (fun a p => listSet a (g p).1 (g p).2) acc = acc ++ l.map g := by
  induction l generalizing acc with
  | nil => simp
  | cons x l ih =>
    rw [List.foldl_cons, listSet_fresh _ _ _ (hdisj x (by simp)), List.map_cons]
    rw [List.map_cons] at hnd
    have hnd2 := (List.nodup_cons.1 hnd).2
    have hhead := (List.nodup_cons.1 hnd).1
    rw [ih (acc ++ [g x]) ?_ hnd2]
    · simp
    · intro p hp
      rw [listKeys_append, List.mem_append]
      rintro (hc | hc)
      · exact hdisj p (by simp [hp]) hc
      · have : (g p).1 = (g x).1 := by simpa [listKeys] using hc
        exact hhead (this ▸ List.mem_map_of_mem _ (List.mem_map_of_mem _ hp))

theorem getFiles_eq_map (s : StoreState)
    (hnd : (s.files.map (fun p => stripSrcPrefix p.1)).Nodup) :
    getFiles s = s.files.map (fun p => (stripSrcPrefix p.1,
      Json.obj [("code", Json.str p.2.code), ("hidden", Json.bool p.2.hidden)])) := by
  have h := foldl_listSet_of_fresh2
    (fun p : String × File => (stripSrcPrefix p.1,
      Json.obj [("code", Json.str p.2.code), ("hidden", Json.bool p.2.hidden)]))
    s.files [] (by intro p hp; simp [listKeys]) (by simpa [List.map_map, Function.comp] using hnd)
  simpa [getFiles] using h

theorem listGet_map_export_none (l : List (String × File)) (k : String)
    (h : ∀ p ∈ l, stripSrcPrefix p.1 ≠ k) :
    listGet (l.map (fun p => (stripSrcPrefix p.1,
      Json.obj [("code", Json.str p.2.code), ("hidden", Json.bool p.2.hidden)]))) k =
      none := by
  induction l with
  | nil => rfl
  | cons x l ih =>
    rw [List.map_cons, listGet_cons]
    rw [if_neg (h x (List.mem_cons_self _ _))]
    exact ih (fun p hp => h p (List.mem_cons_of_mem _ hp))

theorem listGet_map_export_some (l : List (String × File)) (f : String) (file : File)
    (hget : listGet l f = some file)
    (hinj : ∀ p ∈ l, stripSrcPrefix p.1 = stripSrcPrefix f → p.1 = f) :
    listGet (l.map (fun p => (stripSrcPrefix p.1,
      Json.obj [("code", Json.str p.2.code), ("hidden", Json.bool p.2.hidden)])))
      (stripSrcPrefix f) =
      some (Json.obj [("code", Json.str file.code), ("hidden", Json.bool file.hidden)]) := by
  induction l with
  | nil => simp [listGet] at hget
  | cons x l ih =>
    rw [listGet_cons] at hget
    rw [List.map_cons, listGet_cons]
    by_cases hx : x.1 = f
    · rw [if_pos hx] at hget
      rw [if_pos (by rw [hx])]
      rw [Option.some.injEq] at hget
      rw [hget]
    · rw [if_neg hx] at hget
      rw [if_neg (fun hc => hx (hinj x (List.mem_cons_self _ _) hc))]
      exact ih hget (fun p hp => hinj p (List.mem_cons_of_mem _ hp))

theorem stripSrcPrefix_importMapFile : stripSrcPrefix importMapFile = importMapFile := rfl

theorem addSrcPrefix_importMapFile : addSrcPrefix importMapFile = importMapFile := by decide

theorem addSrcPrefix_eq_importMapFile (x : String)
    (h : addSrcPrefix x = importMapFile) : x = importMapFile := by
  by_cases hc : x = importMapFile ∨ x = tsconfigFile ∨ x = viteConfigFile ∨
      x = tsMacroConfigFile ∨ strStartsWith x "src/" = true
  · rw [(addSrcPrefix_eq_self_iff x).2 hc] at h
    exact h
  · rw [addSrcPrefix_of_neg x hc] at h
    have h2 := strStartsWith_src_append x
    rw [h] at h2
    exact absurd h2 (by decide)

theorem not_mem_keys_listSet {α : Type} (l : List (String × α)) (k k' : String)
    (v : α) (h1 : k' ∉ listKeys l) (h2 : k' ≠ k) : k' ∉ listKeys (listSet l k v) := by
  rw [listKeys_listSet]
  by_cases hany : l.any (fun p => p.1 == k)
  · rwa [if_pos hany]
  · rw [if_neg hany]
    intro hc
    rcases List.mem_append.1 hc with hc | hc
    · exact h1 hc
    · exact h2 (by simpa using hc)

theorem not_mem_keys_listDelete {α : Type} (l : List (String × α)) (k k' : String)
    (h1 : k' ∉ listKeys l) : k' ∉ listKeys (listDelete l k) := by
  intro hc
  rcases List.mem_map.1 hc with ⟨p, hp, hpk⟩
  exact h1 (hpk ▸ List.mem_map_of_mem _ (mem_listDelete _ _ _ hp))

theorem listKeys_map_export (l : List (String × File)) :
    listKeys (l.map (fun p => (stripSrcPrefix p.1,
      Json.obj [("code", Json.str p.2.code), ("hidden", Json.bool p.2.hidden)]))) =
      l.map (fun p => stripSrcPrefix p.1) := by
  simp [listKeys, List.map_map]

theorem mem_split_keys {α : Type} (E : List (String × α)) (k : String) (v : α)
    (hmem : (k, v) ∈ E) (hnd : (listKeys E).Nodup) :
    ∃ L1 L2, E = L1 ++ (k, v) :: L2 ∧ k ∉ listKeys L2 := by
  obtain ⟨L1, L2, rfl⟩ := List.append_of_mem hmem
  refine ⟨L1, L2, rfl, ?_⟩
  rw [listKeys_append] at hnd
  have h2 := (List.nodup_append.1 hnd).2.1
  have : listKeys ((k, v) :: L2) = k :: listKeys L2 := rfl
  rw [this] at h2
  exact (List.nodup_cons.1 h2).1

theorem jsonStrField_export (c : String) (h : Bool) :
    jsonStrField (Json.obj [("code", Json.str c), ("hidden", Json.bool h)]) "code" = c := rfl

theorem jsonTruthyField_export (c : String) (h : Bool) :
    jsonTruthyField (Json.obj [("code", Json.str c), ("hidden", Json.bool h)]) "hidden" = h := by
  cases h <;> rfl

theorem jsonStrField_imexport (c : String) :
    jsonStrField (Json.obj [("code", Json.str c)]) "code" = c := rfl

theorem jsonTruthyField_imexport (c : String) :
    jsonTruthyField (Json.obj [("code", Json.str c)]) "hidden" = false := rfl

theorem roundTrip_version (b : StoreState) (E : List (String × Json))
    (vv : Option String) (hverE : "_version" ∉ listKeys E) :
    ((versionFieldsSpec vv E).foldl restoreEntry b).vueVersion =
      (match vv with
       | some v => if v = "" then b.vueVersion else some v
       | none => b.vueVersion) := by
  cases vv with
  | none => exact fold_restore_vueVersion_miss E b hverE
  | some v =>
    by_cases hv : v = ""
    · subst hv
      have h1 : versionFieldsSpec (some "") E = E := rfl
      have h2 : (match some "" with
          | some v => if v = "" then b.vueVersion else some v
          | none => b.vueVersion) = b.vueVersion := rfl
      rw [h1, h2]
      exact fold_restore_vueVersion_miss E b hverE
    · have h1 : versionFieldsSpec (some v) E = listSet E "_version" (Json.str v) := by
        show (if v ≠ "" then listSet E "_version" (Json.str v) else E) = _
        rw [if_pos hv]
      have h2 : (match some v with
          | some w => if w = "" then b.vueVersion else some w
          | none => b.vueVersion) = some v := by
        show (if v = "" then b.vueVersion else some v) = some v
        rw [if_neg hv]
      rw [h1, h2, listSet_fresh E "_version" (Json.str v) hverE]
      exact fold_restore_vueVersion_last E b v

theorem roundTrip_miss_core (b : StoreState) (E : List (String × Json))
    (vv : Option String) (f : String)
    (hmiss : ∀ p ∈ E, p.1 ≠ "_version" → addSrcPrefix p.1 ≠ f) :
    listGet ((versionFieldsSpec vv E).foldl restoreFileEntry b.files) f =
      listGet b.files f := by
  apply listGet_fold_restore_miss
  intro p hp hpv
  cases vv with
  | none => exact hmiss p hp hpv
  | some v =>
    rw [versionFieldsSpec] at hp
    by_cases hv : v = ""
    · rw [if_neg (fun hc => hc hv)] at hp
      exact hmiss p hp hpv
    · rw [if_pos hv] at hp
      rcases mem_listSet _ _ _ _ hp with hp | hp
      · exact hmiss p hp hpv
      · exact absurd (by rw [hp]) hpv

theorem roundTrip_hit_core (b : StoreState) (E : List (String × Json))
    (vv : Option String) (f k : String) (w : Json)
    (hk : k ≠ "_version") (hkey : addSrcPrefix k = f)
    (hmemE : (k, w) ∈ E)
    (hEnodup : (listKeys E).Nodup)
    (hverE : "_version" ∉ listKeys E)
    (hcol : ∀ p ∈ E, addSrcPrefix p.1 = f → p.1 = k) :
    listGet ((versionFieldsSpec vv E).foldl restoreFileEntry b.files) f =
      some { filename := f, code := jsonStrField w "code",
             hidden := jsonTruthyField w "hidden" } := by
  obtain ⟨L1, L2, hE, hnotinL2⟩ := mem_split_keys E k w hmemE hEnodup
  have hL2cond : ∀ p ∈ L2, p.1 ≠ "_version" → addSrcPrefix p.1 ≠ f := by
    intro p hpL2 hpv hc
    have hpE : p ∈ E := by
      rw [hE]
      exact List.mem_append_right _ (List.mem_cons_of_mem _ hpL2)
    have : p.1 = k := hcol p hpE hc
    exact hnotinL2 (this ▸ List.mem_map_of_mem _ hpL2)
  cases vv with
  | none =>
    rw [show versionFieldsSpec none E = E from rfl, hE]
    exact listGet_fold_restore_hit L1 L2 b.files f k w hk hkey hL2cond
  | some v =>
    by_cases hv : v = ""
    · rw [versionFieldsSpec, if_neg (fun hc => hc hv), hE]
      exact listGet_fold_restore_hit L1 L2 b.files f k w hk hkey hL2cond
    · rw [versionFieldsSpec, if_pos hv, listSet_fresh E "_version" (Json.str v) hverE, hE]
      rw [List.append_assoc, List.cons_append]
      refine listGet_fold_restore_hit L1 (L2 ++ [("_version", Json.str v)])
        b.files f k w hk hkey ?_
      intro p hp hpv
      rcases List.mem_append.1 hp with hp | hp
      · exact hL2cond p hp hpv
      · rw [List.mem_singleton] at hp
        exact absurd (by rw [hp]) hpv

theorem serialize_eq (s : StoreState) :
    serialize s =
      (match listGet (getFiles s) importMapFile with
      | none => some ("#" ++ utoa (jsonStringify (Json.obj
          (versionFieldsSpec s.vueVersion (getFiles s)))))
      | some im =>
        match jsonParse (jsonStrField im "code") with
        | .error _ => none
        | .ok parsed =>
          if parsed = Json.null then none
          else
            some ("#" ++ utoa (jsonStringify (Json.obj (versionFieldsSpec s.vueVersion
              (if (jkeys (pruneImportMap s.builtinImportMap parsed)).length ≠ 0 then
                listSet (getFiles s) importMapFile
                  (Json.obj [("code",
                    Json.str (jsonStringify (pruneImportMap s.builtinImportMap parsed)))])
               else listDelete (getFiles s) importMapFile)))))) := by
  simp only [serialize]
  cases hm : listGet (getFiles s) importMapFile with
  | none => rfl
  | some im =>
    dsimp only
    cases hp : jsonParse (jsonStrField im "code") with
    | error e => rfl
    | ok parsed =>
      dsimp only
      by_cases hnull : parsed = Json.null
      · simp only [if_pos hnull]
      · simp only [if_neg hnull]
        rfl

/-- **C1 (amended).** `deserialize(serialize())` into a file-less base store
reconstructs the file set and the version selection, not the main file.
Precisely, for a store whose filenames are normalized (`addSrcPrefix ∘
stripSrcPrefix` fixes each key), whose stripped filenames are distinct and
avoid the `_version` marker key — all true of states the store itself
builds — and whose serialization succeeds: every file other than the
reserved import-map file is restored with its exact code and hidden flag;
the selected version is restored (an empty-string version was never
serialized); the import-map file is restored exactly when the pruned map
still has keys in the `Object.keys` sense — fields of an object, and a
nonempty string or array also counts — carrying the pruned JSON text and
an unhidden flag; and `mainFile` is NOT restored — it keeps the base store's value, because
`serialize` never records it (the app's `useStore` re-guesses it, see the
counterexample). -/
theorem numFreeFields_mem (l : List (String × Json))
    (h : ∀ p ∈ l, numFree p.2 = true) : numFreeFields l = true := by
  induction l with
  | nil => rfl
  | cons p l ih =>
    obtain ⟨k, v⟩ := p
    rw [numFreeFields_cons, Bool.and_eq_true]
    exact ⟨h (k, v) (List.mem_cons_self _ _),
      ih (fun q hq => h q (List.mem_cons_of_mem _ hq))⟩

theorem versionFields_mem (vv : Option String) (E : List (String × Json))
    (p : String × Json) (hp : p ∈ versionFieldsSpec vv E) :
    p ∈ E ∨ ∃ v, p = ("_version", Json.str v) := by
  cases vv with
  | none => exact Or.inl hp
  | some v =>
    by_cases hv : v = ""
    · left
      rw [versionFieldsSpec, if_neg (fun hc => hc hv)] at hp
      exact hp
    · rw [versionFieldsSpec, if_pos hv] at hp
      rcases mem_listSet _ _ _ _ hp with hp | hp
      · exact Or.inl hp
      · exact Or.inr ⟨v, hp⟩

theorem roundtrip_spec (s b : StoreState) (str : String)
    (hser : serialize s = some str)
    (hb : b.files = [])
    (hnorm : ∀ p ∈ s.files, addSrcPrefix (stripSrcPrefix p.1) = p.1)
    (hnodup : (s.files.map (fun p => stripSrcPrefix p.1)).Nodup)
    (hver : "_version" ∉ s.files.map (fun p => stripSrcPrefix p.1)) :
    (∀ f file, listGet s.files f = some file → f ≠ importMapFile →
      listGet (deserialize str b).files f =
        some { filename := f, code := file.code, hidden := file.hidden }) ∧
    ((deserialize str b).vueVersion =
      (match s.vueVersion with
       | some v => if v = "" then b.vueVersion else some v
       | none => b.vueVersion)) ∧
    (deserialize str b).mainFile = b.mainFile ∧
    (listGet s.files importMapFile = none →
      listGet (deserialize str b).files importMapFile = none) ∧
    (∀ imf parsed, listGet s.files importMapFile = some imf →
      jsonParse imf.code = .ok parsed →
      listGet (deserialize str b).files importMapFile =
        (if (jkeys (pruneImportMap s.builtinImportMap parsed)).length ≠ 0 then
          some { filename := importMapFile,
                 code := jsonStringify (pruneImportMap s.builtinImportMap parsed),
                 hidden := false }
         else none)) := by
  have hexp := getFiles_eq_map s hnodup
  set EM := s.files.map (fun p => (stripSrcPrefix p.1,
      Json.obj [("code", Json.str p.2.code), ("hidden", Json.bool p.2.hidden)])) with hEM
  have hkeysEM : listKeys EM = s.files.map (fun p => stripSrcPrefix p.1) :=
    listKeys_map_export _
  have hndEM : (listKeys EM).Nodup := by rw [hkeysEM]; exact hnodup
  have hverEM : "_version" ∉ listKeys EM := by rw [hkeysEM]; exact hver
  have hfileFacts : ∀ f file, listGet s.files f = some file →
      (stripSrcPrefix f, Json.obj [("code", Json.str file.code),
        ("hidden", Json.bool file.hidden)]) ∈ EM ∧ addSrcPrefix (stripSrcPrefix f) = f ∧
      stripSrcPrefix f ≠ "_version" := by
    intro f file hget
    rcases Option.map_eq_some'.1 hget with ⟨pf, hfind, hsnd⟩
    have hmem := List.mem_of_find?_eq_some hfind
    have hkey : pf.1 = f := by simpa using List.find?_some hfind
    refine ⟨?_, ?_, ?_⟩
    · rw [hEM]
      have h3 := List.mem_map_of_mem (fun p : String × File => (stripSrcPrefix p.1,
        Json.obj [("code", Json.str p.2.code), ("hidden", Json.bool p.2.hidden)])) hmem
      dsimp only at h3
      rwa [hkey, hsnd] at h3
    · have h3 := hnorm pf hmem
      rwa [hkey] at h3
    · intro hc
      exact hver (hc ▸ List.mem_map.2 ⟨pf, hmem, by rw [hkey]⟩)
  have hcolEM : ∀ f p, p ∈ EM → addSrcPrefix p.1 = f → p.1 = stripSrcPrefix f := by
    intro f p hp hc
    rw [hEM] at hp
    rcases List.mem_map.1 hp with ⟨q, hq, hqe⟩
    have hq1 : p.1 = stripSrcPrefix q.1 := by rw [← hqe]
    have hq2 : addSrcPrefix p.1 = q.1 := by rw [hq1]; exact hnorm q hq
    rw [hq2] at hc
    rw [hq1, hc]
  have hmemkeyim : ∀ p ∈ EM, addSrcPrefix p.1 = importMapFile →
      importMapFile ∈ listKeys s.files := by
    intro p hp hc
    have h1 := hcolEM importMapFile p hp hc
    rw [stripSrcPrefix_importMapFile] at h1
    rw [hEM] at hp
    rcases List.mem_map.1 hp with ⟨q, hq, hqe⟩
    have hq1 : p.1 = stripSrcPrefix q.1 := by rw [← hqe]
    have hq2 : addSrcPrefix p.1 = q.1 := by rw [hq1]; exact hnorm q hq
    have : q.1 = importMapFile := by rw [← hq2, hc]
    exact this ▸ List.mem_map_of_mem _ hq
  have hEMnum : ∀ p ∈ EM, numFree p.2 = true := by
    intro p hp
    rw [hEM] at hp
    rcases List.mem_map.1 hp with ⟨q, hq, hqe⟩
    rw [← hqe]
    rfl
  rw [serialize_eq] at hser
  cases him : listGet s.files importMapFile with
  | none =>
    have himEM : listGet (getFiles s) importMapFile = none := by
      rw [hexp]
      apply listGet_map_export_none
      intro p hp hc
      have h1 : p.1 = importMapFile := by
        have h2 := hnorm p hp
        rw [hc, addSrcPrefix_importMapFile] at h2
        exact h2.symm
      have h2 : importMapFile ∈ listKeys s.files := h1 ▸ List.mem_map_of_mem _ hp
      rw [← listGet_isSome_iff_mem, him] at h2
      simp at h2
    rw [himEM] at hser
    dsimp only at hser
    obtain rfl := (Option.some.inj hser).symm
    rw [hexp]
    have hnum : numFree (Json.obj (versionFieldsSpec s.vueVersion EM)) = true := by
      show numFreeFields (versionFieldsSpec s.vueVersion EM) = true
      apply numFreeFields_mem
      intro p hp
      rcases versionFields_mem _ _ _ hp with hp | ⟨v, rfl⟩
      · exact hEMnum p hp
      · rfl
    rw [deserialize_hash_stringify _ _ hnum]
    have hmissA : ∀ p ∈ EM, p.1 ≠ "_version" → addSrcPrefix p.1 ≠ importMapFile := by
      intro p hp hpv hc
      have h2 := hmemkeyim p hp hc
      rw [← listGet_isSome_iff_mem, him] at h2
      simp at h2
    refine ⟨?_, ?_, ?_, ?_, ?_⟩
    · intro f file hget hf
      rw [fold_restore_files]
      have hff := hfileFacts f file hget
      rw [roundTrip_hit_core b EM s.vueVersion f (stripSrcPrefix f) _ hff.2.2 hff.2.1
        hff.1 hndEM hverEM (fun p hp hc => hcolEM f p hp hc)]
      rw [jsonStrField_export, jsonTruthyField_export]
    · exact roundTrip_version b EM s.vueVersion hverEM
    · exact fold_restore_mainFile _ _
    · intro _
      rw [fold_restore_files, roundTrip_miss_core b EM s.vueVersion importMapFile hmissA, hb]
      rfl
    · intro imf parsed h1 h2
      exact Option.noConfusion h1
  | some imf =>
    have himEM : listGet (getFiles s) importMapFile = some (Json.obj
        [("code", Json.str imf.code), ("hidden", Json.bool imf.hidden)]) := by
      rw [hexp]
      have hinj : ∀ p ∈ s.files, stripSrcPrefix p.1 = stripSrcPrefix importMapFile →
          p.1 = importMapFile := by
        intro p hp hc
        rw [stripSrcPrefix_importMapFile] at hc
        have h2 := hnorm p hp
        rw [hc, addSrcPrefix_importMapFile] at h2
        exact h2.symm
      have h := listGet_map_export_some s.files importMapFile imf him hinj
      rwa [stripSrcPrefix_importMapFile] at h
    rw [himEM] at hser
    dsimp only at hser
    rw [jsonStrField_export] at hser
    cases hp : jsonParse imf.code with
    | error e =>
      rw [hp] at hser
      exact Option.noConfusion hser
    | ok parsed =>
      rw [hp] at hser
      dsimp only at hser
      by_cases hnull : parsed = Json.null
      · rw [if_pos hnull] at hser
        exact Option.noConfusion hser
      · rw [if_neg hnull] at hser
        by_cases hcond : (jkeys (pruneImportMap s.builtinImportMap parsed)).length ≠ 0
        · rw [if_pos hcond] at hser
          obtain rfl := (Option.some.inj hser).symm
          rw [hexp]
          set E := listSet EM importMapFile (Json.obj [("code",
            Json.str (jsonStringify (pruneImportMap s.builtinImportMap parsed)))]) with hE
          have hndE : (listKeys E).Nodup := nodup_keys_listSet _ _ _ hndEM
          have hverE : "_version" ∉ listKeys E :=
            not_mem_keys_listSet _ _ _ _ hverEM (by decide)
          have hEnum : ∀ p ∈ E, numFree p.2 = true := by
            intro p hp
            rcases mem_listSet _ _ _ _ hp with hp | hp
            · exact hEMnum p hp
            · rw [hp]
              rfl
          have hnum : numFree (Json.obj (versionFieldsSpec s.vueVersion E)) = true := by
            show numFreeFields (versionFieldsSpec s.vueVersion E) = true
            apply numFreeFields_mem
            intro p hp
            rcases versionFields_mem _ _ _ hp with hp | ⟨v, rfl⟩
            · exact hEnum p hp
            · rfl
          rw [deserialize_hash_stringify _ _ hnum]
          refine ⟨?_, ?_, ?_, ?_, ?_⟩
          · intro f file hget hf
            rw [fold_restore_files]
            have hff := hfileFacts f file hget
            have hstrip_ne_im : stripSrcPrefix f ≠ importMapFile := by
              intro hc
              apply hf
              rw [← hff.2.1, hc, addSrcPrefix_importMapFile]
            have hmemE : (stripSrcPrefix f, Json.obj [("code", Json.str file.code),
                ("hidden", Json.bool file.hidden)]) ∈ E :=
              mem_listSet_of_ne _ _ _ _ hff.1 hstrip_ne_im
            have hcolE : ∀ p ∈ E, addSrcPrefix p.1 = f → p.1 = stripSrcPrefix f := by
              intro p hp hc
              rcases mem_listSet _ _ _ _ hp with hp | hp
              · exact hcolEM f p hp hc
              · exfalso
                apply hf
                rw [← hc, hp, addSrcPrefix_importMapFile]
            rw [roundTrip_hit_core b E s.vueVersion f (stripSrcPrefix f) _ hff.2.2 hff.2.1
              hmemE hndE hverE hcolE]
            rw [jsonStrField_export, jsonTruthyField_export]
          · exact roundTrip_version b E s.vueVersion hverE
          · exact fold_restore_mainFile _ _
          · intro h1
            exact Option.noConfusion h1
          · intro imf2 parsed2 h1 h2
            obtain rfl : imf = imf2 := Option.some.inj h1
            rw [hp] at h2
            obtain rfl : parsed = parsed2 := by
              injection h2
            rw [if_pos hcond, fold_restore_files]
            have hmemE : (importMapFile, Json.obj [("code",
                Json.str (jsonStringify (pruneImportMap s.builtinImportMap parsed)))]) ∈ E :=
              mem_listSet_self _ _ _
            have hcolE : ∀ p ∈ E, addSrcPrefix p.1 = importMapFile → p.1 = importMapFile := by
              intro p hp hc
              exact addSrcPrefix_eq_importMapFile p.1 hc
            rw [roundTrip_hit_core b E s.vueVersion importMapFile importMapFile _
              (by decide) addSrcPrefix_importMapFile hmemE hndE hverE hcolE]
            rw [jsonStrField_imexport, jsonTruthyField_imexport]
        · rw [if_neg hcond] at hser
          obtain rfl := (Option.some.inj hser).symm
          rw [hexp]
          set E := listDelete EM importMapFile with hE
          have hndE : (listKeys E).Nodup := nodup_keys_listDelete _ _ hndEM
          have hverE : "_version" ∉ listKeys E := not_mem_keys_listDelete _ _ _ hverEM
          have hEnum : ∀ p ∈ E, numFree p.2 = true := by
            intro p hp
            exact hEMnum p (mem_listDelete _ _ _ hp)
          have hnum : numFree (Json.obj (versionFieldsSpec s.vueVersion E)) = true := by
            show numFreeFields (versionFieldsSpec s.vueVersion E) = true
            apply numFreeFields_mem
            intro p hp
            rcases versionFields_mem _ _ _ hp with hp | ⟨v, rfl⟩
            · exact hEnum p hp
            · rfl
          rw [deserialize_hash_stringify _ _ hnum]
          refine ⟨?_, ?_, ?_, ?_, ?_⟩
          · intro f file hget hf
            rw [fold_restore_files]
            have hff := hfileFacts f file hget
            have hstrip_ne_im : stripSrcPrefix f ≠ importMapFile := by
              intro hc
              apply hf
              rw [← hff.2.1, hc, addSrcPrefix_importMapFile]
            have hmemE : (stripSrcPrefix f, Json.obj [("code", Json.str file.code),
                ("hidden", Json.bool file.hidden)]) ∈ E :=
              mem_listDelete_of_ne _ _ _ hff.1 hstrip_ne_im
            have hcolE : ∀ p ∈ E, addSrcPrefix p.1 = f → p.1 = stripSrcPrefix f := by
              intro p hp hc
              exact hcolEM f p (mem_listDelete _ _ _ hp) hc
            rw [roundTrip_hit_core b E s.vueVersion f (stripSrcPrefix f) _ hff.2.2 hff.2.1
              hmemE hndE hverE hcolE]
            rw [jsonStrField_export, jsonTruthyField_export]
          · exact roundTrip_version b E s.vueVersion hverE
          · exact fold_restore_mainFile _ _
          · intro h1
            exact Option.noConfusion h1
          · intro imf2 parsed2 h1 h2
            obtain rfl : imf = imf2 := Option.some.inj h1
            rw [hp] at h2
            obtain rfl : parsed = parsed2 := by
              injection h2
            rw [if_neg hcond, fold_restore_files]
            have hmissB : ∀ p ∈ E, p.1 ≠ "_version" → addSrcPrefix p.1 ≠ importMapFile := by
              intro p hp hpv hc
              rw [hE, listDelete] at hp
              have hmf := List.mem_filter.1 hp
              have h1 := hcolEM importMapFile p hmf.1 hc
              rw [stripSrcPrefix_importMapFile] at h1
              have h2 := hmf.2
              rw [h1] at h2
              simp at h2
            rw [roundTrip_miss_core b E s.vueVersion importMapFile hmissB, hb]
            rfl

set_option maxRecDepth 10000 in
/-- **C1 counterexample.** The round trip does not reconstruct the main
file: `storeSecondMain` designates the second of its two `.tsx` files as
main, but `serialize` records no main-file entry, and the `useStore`
reconstruction re-guesses the main file as the welcome file or, failing
that, the first `.tsx` file — here `src/a.tsx` ≠ `src/b.tsx`. -/
theorem roundtrip_mainFile_counterexample :
    (serialize storeSecondMain).isSome = true ∧
    storeSecondMain.mainFile = "src/b.tsx" ∧
    (useStore defaultBuiltinImportMap defaultTemplate defaultTsMacroConfigCode
        (serialize storeSecondMain)).mainFile = "src/a.tsx" ∧
    (useStore defaultBuiltinImportMap defaultTemplate defaultTsMacroConfigCode
        (serialize storeSecondMain)).mainFile ≠ storeSecondMain.mainFile := by
  decide

set_option maxRecDepth 10000 in
/-- Witness for the amended C1 at a concrete store: the default store
round-trips into a file-less base, whose main file is kept. -/
theorem roundtrip_spec_witness :
    (deserialize ((serialize store0).getD "") { store0 with files := [] }).mainFile =
      ({ store0 with files := [] } : StoreState).mainFile :=
  (roundtrip_spec store0 { store0 with files := [] } ((serialize store0).getD "")
    (by decide) rfl (by decide) (by decide) (by decide)).2.2.1
